import Mathlib

/-!
Verification development for the `singlefleet` package (singlefleet.go).

The Go code coalesces concurrent `Fetch(id)` calls into shared batched
executions of a caller-supplied `Job`.  We give a shallow embedding as a
small-step interleaving semantics: every caller of `Fetch`, and every caller
of `FetchNow`, is a thread with an explicit program counter; the coordinator
lock `fc.mu`, the per-batch lock `b.mu`, the unbuffered one-shot channel
`b.csig`, the `sync.WaitGroup` `b.wg` and the `maxWait` timer are modelled
explicitly.  Lock-protected regions of the source that contain no blocking
operation are single atomic steps; an operation that blocks while holding a
lock (the channel send at singlefleet.go:82 and singlefleet.go:147, and the
lock acquisitions themselves) gets its own program point.  Elapse of
`maxWait` is a nondeterministic timer event.  Slice capacity hints from
`make` are not modelled (they have no observable semantics here); `map` and
slice values are association lists, `interface{}` values are `String`.
-/

namespace Singlefleet

/-- Identifier-keyed association lookup, modelling Go map indexing
`m[id]` (first binding wins; insertions are guarded so keys are unique). -/
def assocLookup {β : Type} (m : List (String × β)) (id : String) : Option β :=
  match m with
  | [] => none
  | (k, v) :: t => if k = id then some v else assocLookup t id

/-- Modelling Go `delete(m, id)`: remove every binding of `id`. -/
def regErase (m : List (String × Nat)) (id : String) : List (String × Nat) :=
  m.filter (fun p => p.1 ≠ id)

/-- The batched fetch operation: `type Job func(ids []string) (vals
map[string]interface{}, err error)` (singlefleet.go:16). A nil map is the
empty list; a nil error is `none`. -/
abbrev Job := List String → List (String × String) × Option String

/-- The state of one `batch` struct (singlefleet.go:19): `vals`, `err`,
`ids`, the lock `mu` (held or not), the WaitGroup `wg` (with counter 1 until
the opener's `Done`, recorded by `wgDone`), and the channel `csig` (closed or
not; a pending unbuffered send is represented by the sender's program
counter).  `timerFired` records that this batch's `maxWait` timer has
expired; `executed` records that `doFetch` ran for this batch. -/
structure BatchSt where
  ids : List String
  vals : List (String × String)
  err : Option String
  csigClosed : Bool
  wgDone : Bool
  muHeld : Bool
  timerFired : Bool
  executed : Bool
deriving DecidableEq, Repr

instance : Inhabited BatchSt :=
  ⟨⟨[], [], none, false, false, false, false, false⟩⟩

/-- Program counters.  A `Fetch(id)` caller starts at `pStart`.
`pDupWait` is the already-queued path (singlefleet.go:64-69).  The `pJ*`
phases are the joiner path (singlefleet.go:73-95): registered and about to
append (`pJAppend`, line 78-79), holding `b.mu` and acquiring `fc.mu` for the
size-threshold signal (`pJSigLock`, line 81), blocked sending on `csig`
(`pJSend`, line 82), releasing `b.mu` (`pJUnlock`, line 84), waiting on the
WaitGroup (`pJWait`, line 87), deleting its own registry entry and reading
the result (`pJClean`, lines 90-95).  The `pO*` phases are the opener path
(singlefleet.go:99-132): parked in the `select` (`pOSelect`, line 112),
committed to the timer branch and acquiring `fc.mu` (`pOTimer`, line 114),
past a `csig` rendezvous and detaching the batch (`pODetach`, lines 117-120),
invoking the job (`pOExec`, line 123), `wg.Done()` (`pOWg`, line 124),
deleting its own registry entry and reading the result (`pOClean`, lines
127-132).  `pFin` carries the returned `(val, ok, err)` triple.  `pNow*` are
the phases of a `FetchNow` caller (singlefleet.go:137-150); `pPanic` is a
runtime fault (send on a closed channel). -/
inductive Phase where
  | pStart (id : String)
  | pDupWait (id : String) (b : Nat)
  | pJAppend (id : String) (b : Nat)
  | pJSigLock (id : String) (b : Nat)
  | pJSend (id : String) (b : Nat)
  | pJUnlock (id : String) (b : Nat)
  | pJWait (id : String) (b : Nat)
  | pJClean (id : String) (b : Nat)
  | pOSelect (id : String) (b : Nat)
  | pOTimer (id : String) (b : Nat)
  | pODetach (id : String) (b : Nat)
  | pOExec (id : String) (b : Nat)
  | pOWg (id : String) (b : Nat)
  | pOClean (id : String) (b : Nat)
  | pFin (id : String) (b : Nat) (res : Option String × Bool × Option String)
  | pNowStart
  | pNowSend (b : Nat)
  | pNowFin (r : Bool)
  | pPanic
deriving DecidableEq, Repr

/-- The configuration held by a `Fetcher` (singlefleet.go:31): the job and
the two batching bounds.  `maxw` itself is not compared against a clock;
its elapse is the nondeterministic `tim` event. -/
structure Cfg where
  job : Job
  maxw : Int
  maxb : Int

/-- Global state: the coordinator's lock `fc.mu`, open-batch slot `fc.b`,
registry `fc.m` (identifier to batch index), the allocated batches, all
threads, and the log of job invocations (batch index, argument). -/
structure Sys where
  fcMu : Bool
  fcb : Option Nat
  m : List (String × Nat)
  batches : List BatchSt
  threads : List Phase
  jobLog : List (Nat × List String)
deriving DecidableEq, Repr

/-- The batch at index `b` (a dangling index yields the inert default;
reachable states never contain one). -/
def getB (s : Sys) (b : Nat) : BatchSt :=
  s.batches.getD b default

/-- Result triple read by a returning participant:
`val, ok = b.vals[id]; return val, ok, b.err` (singlefleet.go:68-69, 94-95,
131-132). -/
def mkRes (bst : BatchSt) (id : String) : Option String × Bool × Option String :=
  (assocLookup bst.vals id, (assocLookup bst.vals id).isSome, bst.err)

/-- Is this thread the opener of batch `b`, parked in the `select`
(singlefleet.go:112), i.e. a ready receiver on `b.csig`? -/
def isOpenSel (p : Phase) (b : Nat) : Bool :=
  match p with
  | .pOSelect _ b' => b' = b
  | _ => false

/-- Locate the receiver for an unbuffered send on `b.csig`. -/
def findOpener (l : List Phase) (b : Nat) : Option Nat :=
  match l with
  | [] => none
  | p :: t => if isOpenSel p b then some 0 else (findOpener t b).map (· + 1)

/-- Scheduler actions: run thread `i` for one step, or let batch `b`'s
`maxWait` timer expire. -/
inductive Act where
  | thr (i : Nat)
  | tim (b : Nat)
deriving DecidableEq, Repr

/-- One step of thread `i`, currently at `ph`.  `none` means the thread is
blocked (or finished).  See the `Phase` docstring for source lines. -/
def stepPh (cfg : Cfg) (s : Sys) (i : Nat) (ph : Phase) : Option Sys :=
  match ph with
  | .pStart id =>
    -- fc.mu.Lock() ... (lines 61-77 / 98-108; no blocking inside)
    if s.fcMu then none else
    match assocLookup s.m id with
    | some b => some { s with threads := s.threads.set i (.pDupWait id b) }
    | none =>
      match s.fcb with
      | some b =>
        some { s with m := (id, b) :: s.m,
                      threads := s.threads.set i (.pJAppend id b) }
      | none =>
        let n := s.batches.length
        let bst : BatchSt :=
          { ids := [id], vals := [], err := none, csigClosed := false,
            wgDone := false, muHeld := false, timerFired := false,
            executed := false }
        some { s with fcb := some n, m := (id, n) :: s.m,
                      batches := s.batches ++ [bst],
                      threads := s.threads.set i (.pOSelect id n) }
  | .pDupWait id b =>
    -- b.wg.Wait(); val, ok = b.vals[id]; return (lines 67-69)
    if (getB s b).wgDone then
      some { s with threads := s.threads.set i (.pFin id b (mkRes (getB s b) id)) }
    else none
  | .pJAppend id b =>
    -- b.mu.Lock(); b.ids = append(b.ids, id); if len(b.ids) >= fc.maxb (78-80)
    let bst := getB s b
    if bst.muHeld then none else
    let bst' := { bst with muHeld := true, ids := bst.ids ++ [id] }
    let nxt := if cfg.maxb ≤ (bst'.ids.length : Int)
               then Phase.pJSigLock id b else Phase.pJUnlock id b
    some { s with batches := s.batches.set b bst',
                  threads := s.threads.set i nxt }
  | .pJSigLock id b =>
    -- fc.mu.Lock() (line 81), still holding b.mu
    if s.fcMu then none
    else some { s with fcMu := true, threads := s.threads.set i (.pJSend id b) }
  | .pJSend id b =>
    -- b.csig <- struct{}{} (line 82): unbuffered send, holding b.mu and fc.mu
    if (getB s b).csigClosed then
      some { s with threads := s.threads.set i .pPanic }
    else
      match findOpener s.threads b with
      | some j =>
        match s.threads.get? j with
        | some (.pOSelect oid _) =>
          some { s with threads :=
            (s.threads.set j (.pODetach oid b)).set i (.pJUnlock id b) }
        | _ => none
      | none => none
  | .pJUnlock id b =>
    -- b.mu.Unlock() (line 84)
    some { s with batches := s.batches.set b { getB s b with muHeld := false },
                  threads := s.threads.set i (.pJWait id b) }
  | .pJWait id b =>
    -- b.wg.Wait() (line 87)
    if (getB s b).wgDone then
      some { s with threads := s.threads.set i (.pJClean id b) }
    else none
  | .pJClean id b =>
    -- fc.mu.Lock(); delete(fc.m, id); fc.mu.Unlock(); read result (90-95)
    if s.fcMu then none else
    some { s with m := regErase s.m id,
                  threads := s.threads.set i (.pFin id b (mkRes (getB s b) id)) }
  | .pOSelect id b =>
    -- select commits to <-t.C once the timer has fired (line 113)
    if (getB s b).timerFired then
      some { s with threads := s.threads.set i (.pOTimer id b) }
    else none
  | .pOTimer id b =>
    -- fc.mu.Lock(); close(b.csig); fc.b = nil; fc.mu.Unlock() (114-120)
    if s.fcMu then none else
    some { s with fcb := none,
                  batches := s.batches.set b { getB s b with csigClosed := true },
                  threads := s.threads.set i (.pOExec id b) }
  | .pODetach id b =>
    -- t.Stop(); fc.b = nil; fc.mu.Unlock() (117-120); the sender of the
    -- rendezvous left fc.mu locked (line 81 / 138), the opener unlocks it
    some { s with fcb := none, fcMu := false,
                  threads := s.threads.set i (.pOExec id b) }
  | .pOExec id b =>
    -- fc.doFetch(b): c.vals, c.err = fc.f(c.ids) (123, 152-155)
    let bst := getB s b
    let r := cfg.job bst.ids
    some { s with batches := s.batches.set b
                    { bst with vals := r.1, err := r.2, executed := true },
                  jobLog := s.jobLog ++ [(b, bst.ids)],
                  threads := s.threads.set i (.pOWg id b) }
  | .pOWg id b =>
    -- b.wg.Done() (line 124)
    some { s with batches := s.batches.set b { getB s b with wgDone := true },
                  threads := s.threads.set i (.pOClean id b) }
  | .pOClean id b =>
    -- fc.mu.Lock(); delete(fc.m, id); fc.mu.Unlock(); read result (127-132)
    if s.fcMu then none else
    some { s with m := regErase s.m id,
                  threads := s.threads.set i (.pFin id b (mkRes (getB s b) id)) }
  | .pFin _ _ _ => none
  | .pNowStart =>
    -- fc.mu.Lock(); if fc.b == nil { fc.mu.Unlock(); return false } (138-144)
    if s.fcMu then none else
    match s.fcb with
    | none => some { s with threads := s.threads.set i (.pNowFin false) }
    | some b => some { s with fcMu := true,
                              threads := s.threads.set i (.pNowSend b) }
  | .pNowSend b =>
    -- fc.b.csig <- struct{}{}; return true (147-149): fc.mu stays locked
    if (getB s b).csigClosed then
      some { s with threads := s.threads.set i .pPanic }
    else
      match findOpener s.threads b with
      | some j =>
        match s.threads.get? j with
        | some (.pOSelect oid _) =>
          some { s with threads :=
            (s.threads.set j (.pODetach oid b)).set i (.pNowFin true) }
        | _ => none
      | none => none
  | .pNowFin _ => none
  | .pPanic => none

/-- The full step relation: thread steps plus timer expiry. -/
def step (cfg : Cfg) (s : Sys) (a : Act) : Option Sys :=
  match a with
  | .tim b =>
    if b < s.batches.length then
      if (getB s b).timerFired then none
      else some { s with batches :=
                    s.batches.set b { getB s b with timerFired := true } }
    else none
  | .thr i =>
    match s.threads.get? i with
    | none => none
    | some ph => stepPh cfg s i ph

/-- Run a schedule (a list of actions); fails if any action is not enabled. -/
def runTrace (cfg : Cfg) (s : Sys) : List Act → Option Sys
  | [] => some s
  | a :: tr =>
    match step cfg s a with
    | none => none
    | some s' => runTrace cfg s' tr

/-- Initial state: a fresh `Fetcher` (`NewFetcher`, singlefleet.go:49-56)
plus a set of threads about to call `Fetch` or `FetchNow`. -/
def initSys (ts : List Phase) : Sys :=
  { fcMu := false, fcb := none, m := [], batches := [], threads := ts,
    jobLog := [] }

/-- A thread is in an initial phase. -/
def isInit : Phase → Bool
  | .pStart _ => true
  | .pNowStart => true
  | _ => false

/-- All threads initial. -/
def InitOK (ts : List Phase) : Prop :=
  ∀ p ∈ ts, isInit p = true

instance (ts : List Phase) : Decidable (InitOK ts) := by
  unfold InitOK; infer_instance

/-- Reachability from a fresh fetcher with thread set `ts`. -/
def Reach (cfg : Cfg) (ts : List Phase) (s : Sys) : Prop :=
  ∃ tr, runTrace cfg (initSys ts) tr = some s

/-- Number of job invocations recorded for batch `b`. -/
def countB (log : List (Nat × List String)) (b : Nat) : Nat :=
  (log.filter (fun e => e.1 = b)).length

/-! ### List and association-list helper lemmas -/

theorem getq_set_inv {α : Type} (l : List α) (i j : Nat) (x y : α)
    (h : (l.set i x).get? j = some y) :
    (j = i ∧ y = x) ∨ (j ≠ i ∧ l.get? j = some y) := by
  induction l generalizing i j with
  | nil => simp [List.set] at h
  | cons a t ih =>
    cases i with
    | zero =>
      cases j with
      | zero => left; simp_all
      | succ j => right; simp_all
    | succ i =>
      cases j with
      | zero => right; simp_all
      | succ j =>
        simp only [List.set_cons_succ, List.get?_cons_succ] at h
        rcases ih i j h with h1 | h1
        · left; exact ⟨by omega, h1.2⟩
        · right; exact ⟨by omega, h1.2⟩

theorem getq_set_self {α : Type} (l : List α) (i : Nat) (x z : α)
    (h : l.get? i = some z) : (l.set i x).get? i = some x := by
  induction l generalizing i with
  | nil => simp at h
  | cons a t ih =>
    cases i with
    | zero => simp
    | succ i => simpa using ih i (by simpa using h)

theorem getq_set_ne {α : Type} (l : List α) (i j : Nat) (x : α) (h : j ≠ i) :
    (l.set i x).get? j = l.get? j := by
  induction l generalizing i j with
  | nil => simp [List.set]
  | cons a t ih =>
    cases i with
    | zero =>
      cases j with
      | zero => omega
      | succ j => simp
    | succ i =>
      cases j with
      | zero => simp
      | succ j => simpa using ih i j (by omega)

theorem getq_mem {α : Type} {l : List α} {i : Nat} {x : α}
    (h : l.get? i = some x) : x ∈ l := by
  induction l generalizing i with
  | nil => simp at h
  | cons a t ih =>
    cases i with
    | zero => simp_all
    | succ i => exact List.mem_cons_of_mem a (ih (by simpa using h))

theorem getq_lt {α : Type} {l : List α} {i : Nat} {x : α}
    (h : l.get? i = some x) : i < l.length := by
  induction l generalizing i with
  | nil => simp at h
  | cons a t ih =>
    cases i with
    | zero => simp
    | succ i => simpa using ih (by simpa using h)

theorem getq_append_inv {α : Type} (l : List α) (x y : α) (i : Nat)
    (h : (l ++ [x]).get? i = some y) :
    l.get? i = some y ∨ (i = l.length ∧ y = x) := by
  induction l generalizing i with
  | nil =>
    cases i with
    | zero => right; simp_all
    | succ i => simp [List.get?] at h
  | cons a t ih =>
    cases i with
    | zero => left; simp_all
    | succ i =>
      simp only [List.cons_append, List.get?_cons_succ] at h
      rcases ih i h with h1 | h1
      · left; simpa using h1
      · right; simp [h1.1, h1.2]

theorem getq_append_left {α : Type} (l l2 : List α) (i : Nat)
    (h : i < l.length) : (l ++ l2).get? i = l.get? i := by
  induction l generalizing i with
  | nil => simp at h
  | cons a t ih =>
    cases i with
    | zero => simp
    | succ i => simpa using ih i (by simpa using h)

theorem getD_set_self {α : Type} (l : List α) (i : Nat) (x d : α)
    (h : i < l.length) : (l.set i x).getD i d = x := by
  induction l generalizing i with
  | nil => simp at h
  | cons a t ih =>
    cases i with
    | zero => simp
    | succ i => simpa using ih i (by simpa using h)

theorem getD_set_ne {α : Type} (l : List α) (i j : Nat) (x d : α)
    (h : j ≠ i) : (l.set i x).getD j d = l.getD j d := by
  induction l generalizing i j with
  | nil => simp [List.set]
  | cons a t ih =>
    cases i with
    | zero =>
      cases j with
      | zero => omega
      | succ j => simp
    | succ i =>
      cases j with
      | zero => simp
      | succ j => simpa using ih i j (by omega)

theorem getD_append_lt {α : Type} (l l2 : List α) (i : Nat) (d : α)
    (h : i < l.length) : (l ++ l2).getD i d = l.getD i d := by
  induction l generalizing i with
  | nil => simp at h
  | cons a t ih =>
    cases i with
    | zero => simp
    | succ i => simpa using ih i (by simpa using h)

theorem getD_append_len {α : Type} (l : List α) (x d : α) :
    (l ++ [x]).getD l.length d = x := by
  induction l with
  | nil => simp
  | cons a t ih => simp [ih]

theorem getD_oob {α : Type} (l : List α) (i : Nat) (d : α)
    (h : l.length ≤ i) : l.getD i d = d := by
  induction l generalizing i with
  | nil => cases i <;> simp [List.getD]
  | cons a t ih =>
    cases i with
    | zero => simp at h
    | succ i => simpa using ih i (by simpa using h)

theorem assocLookup_mem {β : Type} {m : List (String × β)} {x : String}
    {v : β} (h : assocLookup m x = some v) : (x, v) ∈ m := by
  induction m with
  | nil => simp [assocLookup] at h
  | cons p t ih =>
    obtain ⟨k, w⟩ := p
    by_cases hk : k = x
    · subst hk
      simp [assocLookup] at h
      subst h
      exact List.mem_cons_self _ _
    · simp only [assocLookup, hk, if_false] at h
      exact List.mem_cons_of_mem _ (ih h)

theorem assocLookup_erase (m : List (String × Nat)) (x id : String) :
    assocLookup (regErase m id) x
      = if x = id then none else assocLookup m x := by
  induction m with
  | nil => simp [assocLookup, regErase]
  | cons p t ih =>
    obtain ⟨k, w⟩ := p
    by_cases hk : k = id
    · have hre : regErase ((k, w) :: t) id = regErase t id := by
        simp [regErase, List.filter, hk]
      rw [hre, ih]
      by_cases hx : x = id
      · simp [hx]
      · have hkx : ¬k = x := by rw [hk]; intro hc; exact hx hc.symm
        simp [hx, assocLookup, hkx]
    · have hre : regErase ((k, w) :: t) id = (k, w) :: regErase t id := by
        simp [regErase, List.filter, hk]
      rw [hre]
      by_cases hkx : k = x
      · subst hkx
        simp [assocLookup, hk]
      · simp [assocLookup, hkx, ih]

theorem mem_regErase {m : List (String × Nat)} {id : String}
    {p : String × Nat} (h : p ∈ regErase m id) : p ∈ m :=
  List.mem_of_mem_filter h

theorem countB_nil (b : Nat) : countB [] b = 0 := rfl

theorem countB_cons (e : Nat × List String) (t : List (Nat × List String))
    (b : Nat) :
    countB (e :: t) b = (if e.1 = b then 1 else 0) + countB t b := by
  by_cases he : e.1 = b <;> simp [countB, List.filter, he, Nat.add_comm]

theorem countB_append1 (log : List (Nat × List String)) (e : Nat × List String)
    (b : Nat) :
    countB (log ++ [e]) b = countB log b + (if e.1 = b then 1 else 0) := by
  by_cases h : e.1 = b <;> simp [countB, List.filter_append, h]

theorem countB_zero (log : List (Nat × List String)) (b : Nat)
    (h : ∀ e ∈ log, e.1 ≠ b) : countB log b = 0 := by
  induction log with
  | nil => rfl
  | cons e t ih =>
    have he : e.1 ≠ b := h e (List.mem_cons_self e t)
    have ht := ih fun x hx => h x (List.mem_cons_of_mem e hx)
    simp [countB_cons, he, ht]

theorem countB_pos_of_mem {log : List (Nat × List String)} {b : Nat}
    {l : List String} (h : (b, l) ∈ log) : 0 < countB log b := by
  have hm : (b, l) ∈ log.filter (fun e => e.1 = b) :=
    List.mem_filter.mpr ⟨h, by simp⟩
  have hne : log.filter (fun e => e.1 = b) ≠ [] := by
    intro hc; rw [hc] at hm; simp at hm
  simpa [countB] using List.length_pos.mpr hne

theorem countB_one_unique {b : Nat} {x y : List String} :
    ∀ log : List (Nat × List String), countB log b = 1 →
    (b, x) ∈ log → (b, y) ∈ log → x = y := by
  intro log
  induction log with
  | nil => intro _ hx; simp at hx
  | cons e t ih =>
    intro h hx hy
    rw [countB_cons] at h
    rcases List.mem_cons.mp hx with hx1 | hx1 <;>
      rcases List.mem_cons.mp hy with hy1 | hy1
    · have h2 : (b, x) = (b, y) := hx1.trans hy1.symm
      exact (Prod.ext_iff.mp h2).2
    · exfalso
      have he : e.1 = b := by rw [← hx1]
      have hp := countB_pos_of_mem hy1
      simp [he] at h
      omega
    · exfalso
      have he : e.1 = b := by rw [← hy1]
      have hp := countB_pos_of_mem hx1
      simp [he] at h
      omega
    · have hcount : countB t b = 1 := by
        by_cases he : e.1 = b
        · exfalso
          have hp := countB_pos_of_mem hx1
          simp [he] at h
          omega
        · simpa [he] using h
      exact ih hcount hx1 hy1

theorem isOpenSel_eq {p : Phase} {b : Nat} (h : isOpenSel p b = true) :
    ∃ oid, p = .pOSelect oid b := by
  cases p <;> simp_all [isOpenSel]

theorem findOpener_sound (l : List Phase) (b : Nat) :
    ∀ j, findOpener l b = some j →
    ∃ oid, l.get? j = some (.pOSelect oid b) := by
  induction l with
  | nil => intro j h; simp [findOpener] at h
  | cons p t ih =>
    intro j h
    by_cases hp : isOpenSel p b = true
    · simp only [findOpener, hp, if_true] at h
      injection h with h1
      subst h1
      obtain ⟨oid, hoid⟩ := isOpenSel_eq hp
      exact ⟨oid, by rw [hoid]; rfl⟩
    · have h2 : (findOpener t b).map (· + 1) = some j := by
        simpa [findOpener, hp] using h
      cases hfo : findOpener t b with
      | none => rw [hfo] at h2; simp at h2
      | some j0 =>
        rw [hfo] at h2
        simp at h2
        obtain ⟨oid, hoid⟩ := ih j0 hfo
        obtain rfl : j = j0 + 1 := by omega
        exact ⟨oid, by simpa using hoid⟩

theorem findOpener_complete (l : List Phase) (b : Nat) :
    ∀ j oid, l.get? j = some (.pOSelect oid b) →
    (findOpener l b).isSome := by
  induction l with
  | nil => intro j oid h; simp at h
  | cons p t ih =>
    intro j oid h
    by_cases hp : isOpenSel p b = true
    · simp [findOpener, hp]
    · cases j with
      | zero =>
        simp at h
        rw [h] at hp
        simp [isOpenSel] at hp
      | succ j =>
        have := ih j oid (by simpa using h)
        simp only [findOpener, hp, if_false, Bool.false_eq_true]
        cases hfo : findOpener t b with
        | none => rw [hfo] at this; simp at this
        | some j0 => simp

/-! ### Phase classification -/

/-- Phases in which the thread is a `Fetch(id)` participant of batch `b`
holding a live registry entry `fc.m[id] = b` (registered at singlefleet.go:76
or 107, not yet deleted at 91 or 128). -/
def ownsOf : Phase → Option (String × Nat)
  | .pJAppend id b => some (id, b)
  | .pJSigLock id b => some (id, b)
  | .pJSend id b => some (id, b)
  | .pJUnlock id b => some (id, b)
  | .pJWait id b => some (id, b)
  | .pJClean id b => some (id, b)
  | .pOSelect id b => some (id, b)
  | .pOTimer id b => some (id, b)
  | .pODetach id b => some (id, b)
  | .pOExec id b => some (id, b)
  | .pOWg id b => some (id, b)
  | .pOClean id b => some (id, b)
  | _ => none

/-- Phases in which the thread is the opener of batch `b`
(singlefleet.go:98-132). -/
def openerOf : Phase → Option (String × Nat)
  | .pOSelect id b => some (id, b)
  | .pOTimer id b => some (id, b)
  | .pODetach id b => some (id, b)
  | .pOExec id b => some (id, b)
  | .pOWg id b => some (id, b)
  | .pOClean id b => some (id, b)
  | _ => none

/-- Phases in which the thread holds `fc.mu`: blocked senders on `csig`
(which acquired `fc.mu` at line 81 or entered `FetchNow` at 138 and never
release it) and the opener right after a rendezvous (it releases the handed
over lock at line 120). -/
def holderOf : Phase → Bool
  | .pJSend _ _ => true
  | .pNowSend _ => true
  | .pODetach _ _ => true
  | _ => false

/-- The inductive invariant of the system, proved to hold in every reachable
state.  Each field is a property of the coordinator/batch/thread state. -/
structure Inv (cfg : Cfg) (s : Sys) : Prop where
  owns : ∀ i ph, s.threads.get? i = some ph → ∀ id b, ownsOf ph = some (id, b) →
    b < s.batches.length ∧ assocLookup s.m id = some b
  ownsUniq : ∀ i j phi phj, s.threads.get? i = some phi →
    s.threads.get? j = some phj → i ≠ j →
    ∀ id b id' b', ownsOf phi = some (id, b) → ownsOf phj = some (id', b') →
    id ≠ id'
  idsNodup : ∀ b, (getB s b).ids.Nodup
  pend : ∀ i id b, s.threads.get? i = some (.pJAppend id b) →
    id ∉ (getB s b).ids
  idsReg : ∀ b, s.fcb = some b → ∀ x ∈ (getB s b).ids,
    assocLookup s.m x = some b
  openFresh : ∀ b, s.fcb = some b → b < s.batches.length ∧
    (getB s b).executed = false ∧ (getB s b).wgDone = false ∧
    (getB s b).csigClosed = false ∧
    ∃ i id, s.threads.get? i = some (.pOSelect id b) ∨
            s.threads.get? i = some (.pOTimer id b) ∨
            s.threads.get? i = some (.pODetach id b)
  openerPreExec : ∀ i id b, (s.threads.get? i = some (.pOSelect id b) ∨
    s.threads.get? i = some (.pOTimer id b) ∨
    s.threads.get? i = some (.pODetach id b) ∨
    s.threads.get? i = some (.pOExec id b)) → (getB s b).executed = false
  openerUniq : ∀ i j phi phj, s.threads.get? i = some phi →
    s.threads.get? j = some phj → ∀ id b id',
    openerOf phi = some (id, b) → openerOf phj = some (id', b) → i = j
  logRange : ∀ e ∈ s.jobLog, e.1 < s.batches.length
  logCount : ∀ b, countB s.jobLog b = if (getB s b).executed then 1 else 0
  logPref : ∀ e ∈ s.jobLog, e.2.Nodup ∧ ∃ t, e.2 ++ t = (getB s e.1).ids
  execJob : ∀ b, (getB s b).executed = true →
    ∃ l, (b, l) ∈ s.jobLog ∧ cfg.job l = ((getB s b).vals, (getB s b).err)
  finOK : ∀ i id b res, s.threads.get? i = some (.pFin id b res) →
    (getB s b).executed = true ∧ res = mkRes (getB s b) id
  muFree : s.fcMu = false → ∀ i ph, s.threads.get? i = some ph →
    holderOf ph = false
  muUniq : ∀ i j phi phj, s.threads.get? i = some phi →
    s.threads.get? j = some phj → holderOf phi = true → holderOf phj = true →
    i = j
  oTimerF : ∀ i id b, s.threads.get? i = some (.pOTimer id b) →
    (getB s b).timerFired = true
  wgExec : ∀ b, (getB s b).wgDone = true → (getB s b).executed = true
  oWgE : ∀ i id b, (s.threads.get? i = some (.pOWg id b) ∨
    s.threads.get? i = some (.pOClean id b)) → (getB s b).executed = true
  jCleanWg : ∀ i id b, s.threads.get? i = some (.pJClean id b) →
    (getB s b).wgDone = true
  jSigLen : ∀ i id b, (s.threads.get? i = some (.pJSigLock id b) ∨
    s.threads.get? i = some (.pJSend id b)) →
    cfg.maxb ≤ ((getB s b).ids.length : Int)

theorem executed_lt {s : Sys} {b : Nat} (h : (getB s b).executed = true) :
    b < s.batches.length := by
  by_contra hb
  rw [getB, getD_oob _ _ _ (by omega)] at h
  exact absurd h (by decide)

theorem wgDone_lt {s : Sys} {b : Nat} (h : (getB s b).wgDone = true) :
    b < s.batches.length := by
  by_contra hb
  rw [getB, getD_oob _ _ _ (by omega)] at h
  exact absurd h (by decide)

/-! ### Invariant preservation, one lemma per transition -/

theorem getD_set_cases {α : Type} [Inhabited α] (l : List α) (b b' : Nat)
    (x : α) (hlt : b < l.length) :
    (l.set b x).getD b' default = if b' = b then x else l.getD b' default := by
  by_cases hb : b' = b
  · subst hb; rw [if_pos rfl]; exact getD_set_self _ _ _ _ hlt
  · rw [if_neg hb]; exact getD_set_ne _ _ _ _ _ hb

theorem inv_tim (cfg : Cfg) (s : Sys) (b : Nat) (hInv : Inv cfg s)
    (hlt : b < s.batches.length) :
    Inv cfg { s with
      batches := s.batches.set b { getB s b with timerFired := true } } := by
  set s' : Sys := { s with
    batches := s.batches.set b { getB s b with timerFired := true } } with hs'
  have hth : s'.threads = s.threads := by rw [hs']
  have hm : s'.m = s.m := by rw [hs']
  have hfcb : s'.fcb = s.fcb := by rw [hs']
  have hmu : s'.fcMu = s.fcMu := by rw [hs']
  have hlog : s'.jobLog = s.jobLog := by rw [hs']
  have hlen : s'.batches.length = s.batches.length := by
    rw [hs']; exact List.length_set s.batches b _
  have hgb : ∀ b2, getB s' b2
      = if b2 = b then { getB s b with timerFired := true } else getB s b2 := by
    intro b2
    exact getD_set_cases s.batches b b2 _ hlt
  have hids : ∀ b2, (getB s' b2).ids = (getB s b2).ids := by
    intro b2; rw [hgb]; split
    · rename_i h; rw [h]
    · rfl
  have hvals : ∀ b2, (getB s' b2).vals = (getB s b2).vals := by
    intro b2; rw [hgb]; split
    · rename_i h; rw [h]
    · rfl
  have herr : ∀ b2, (getB s' b2).err = (getB s b2).err := by
    intro b2; rw [hgb]; split
    · rename_i h; rw [h]
    · rfl
  have hexec : ∀ b2, (getB s' b2).executed = (getB s b2).executed := by
    intro b2; rw [hgb]; split
    · rename_i h; rw [h]
    · rfl
  have hwg : ∀ b2, (getB s' b2).wgDone = (getB s b2).wgDone := by
    intro b2; rw [hgb]; split
    · rename_i h; rw [h]
    · rfl
  have hcsig : ∀ b2, (getB s' b2).csigClosed = (getB s b2).csigClosed := by
    intro b2; rw [hgb]; split
    · rename_i h; rw [h]
    · rfl
  have hmk : ∀ b2 id, mkRes (getB s' b2) id = mkRes (getB s b2) id := by
    intro b2 id; rw [hgb]; split
    · rename_i h; rw [h]; rfl
    · rfl
  refine
    { owns := ?_, ownsUniq := ?_, idsNodup := ?_, pend := ?_, idsReg := ?_,
      openFresh := ?_, openerPreExec := ?_, openerUniq := ?_, logRange := ?_,
      logCount := ?_, logPref := ?_, execJob := ?_, finOK := ?_, muFree := ?_,
      muUniq := ?_, oTimerF := ?_, wgExec := ?_, oWgE := ?_, jCleanWg := ?_,
      jSigLen := ?_ }
  · intro i ph hph id b0 ho
    rw [hth] at hph
    rw [hlen, hm]
    exact hInv.owns i ph hph id b0 ho
  · intro i j phi phj hpi hpj hij id b0 id' b0' hoi hoj
    rw [hth] at hpi hpj
    exact hInv.ownsUniq i j phi phj hpi hpj hij id b0 id' b0' hoi hoj
  · intro b0; rw [hids]; exact hInv.idsNodup b0
  · intro i id b0 hph
    rw [hth] at hph
    rw [hids]
    exact hInv.pend i id b0 hph
  · intro b0 hfcb0 x hx
    rw [hfcb] at hfcb0
    rw [hids] at hx
    rw [hm]
    exact hInv.idsReg b0 hfcb0 x hx
  · intro b0 hfcb0
    rw [hfcb] at hfcb0
    obtain ⟨h1, h2, h3, h4, h5⟩ := hInv.openFresh b0 hfcb0
    rw [hlen, hexec, hwg, hcsig, hth]
    exact ⟨h1, h2, h3, h4, h5⟩
  · intro i id b0 hph
    rw [hth] at hph
    rw [hexec]
    exact hInv.openerPreExec i id b0 hph
  · intro i j phi phj hpi hpj id b0 id' hoi hoj
    rw [hth] at hpi hpj
    exact hInv.openerUniq i j phi phj hpi hpj id b0 id' hoi hoj
  · intro e he; rw [hlog] at he; rw [hlen]; exact hInv.logRange e he
  · intro b0; rw [hlog, hexec]; exact hInv.logCount b0
  · intro e he
    rw [hlog] at he
    obtain ⟨h1, t, h2⟩ := hInv.logPref e he
    exact ⟨h1, t, by rw [hids]; exact h2⟩
  · intro b0 hex
    rw [hexec] at hex
    rw [hlog, hvals, herr]
    exact hInv.execJob b0 hex
  · intro i id b0 res hph
    rw [hth] at hph
    rw [hexec, hmk]
    exact hInv.finOK i id b0 res hph
  · intro hmu0 i ph hph
    rw [hmu] at hmu0
    rw [hth] at hph
    exact hInv.muFree hmu0 i ph hph
  · intro i j phi phj hpi hpj h1 h2
    rw [hth] at hpi hpj
    exact hInv.muUniq i j phi phj hpi hpj h1 h2
  · intro i id b0 hph
    rw [hth] at hph
    rw [hgb]
    split
    · rfl
    · exact hInv.oTimerF i id b0 hph
  · intro b0 h1
    rw [hwg] at h1
    rw [hexec]
    exact hInv.wgExec b0 h1
  · intro i id b0 hph
    rw [hth] at hph
    rw [hexec]
    exact hInv.oWgE i id b0 hph
  · intro i id b0 hph
    rw [hth] at hph
    rw [hwg]
    exact hInv.jCleanWg i id b0 hph
  · intro i id b0 hph
    rw [hth] at hph
    rw [hids]
    exact hInv.jSigLen i id b0 hph

theorem nodup_snoc {α : Type} {l : List α} {x : α} (h : l.Nodup)
    (hx : x ∉ l) : (l ++ [x]).Nodup := by
  rw [List.nodup_append]
  refine ⟨h, List.nodup_singleton x, ?_⟩
  intro a ha hb
  simp at hb
  subst hb
  exact hx ha

theorem getD_append_cases {α : Type} [Inhabited α] (l : List α) (x : α)
    (b : Nat) :
    (l ++ [x]).getD b default = if b = l.length then x else l.getD b default := by
  by_cases hb : b = l.length
  · subst hb; rw [if_pos rfl]; exact getD_append_len l x default
  · rw [if_neg hb]
    by_cases hlt : b < l.length
    · exact getD_append_lt _ _ _ _ hlt
    · rw [getD_oob l _ _ (by omega), getD_oob _ _ _ (by simp; omega)]

/-- Preservation for transitions that only move thread `i` to a phase with
no invariant obligations (`pDupWait`, `pNowFin`, `pPanic`). -/
theorem inv_set_phase (cfg : Cfg) (s : Sys) (i : Nat) (pOld pNew : Phase)
    (hInv : Inv cfg s) (hi : s.threads.get? i = some pOld)
    (howns : ownsOf pNew = none) (hop : openerOf pNew = none)
    (hhold : holderOf pNew = false)
    (hnf : ∀ id b res, pNew ≠ .pFin id b res)
    (holdop : openerOf pOld = none) :
    Inv cfg { s with threads := s.threads.set i pNew } := by
  set s' : Sys := { s with threads := s.threads.set i pNew } with hs'
  have hcase : ∀ k ph, s'.threads.get? k = some ph →
      (k = i ∧ ph = pNew) ∨ (k ≠ i ∧ s.threads.get? k = some ph) := by
    intro k ph hph
    exact getq_set_inv _ _ _ _ _ hph
  have hne : ∀ k, k ≠ i → s'.threads.get? k = s.threads.get? k := by
    intro k hk
    exact getq_set_ne _ _ _ _ hk
  refine
    { owns := ?_, ownsUniq := ?_, idsNodup := ?_, pend := ?_, idsReg := ?_,
      openFresh := ?_, openerPreExec := ?_, openerUniq := ?_, logRange := ?_,
      logCount := ?_, logPref := ?_, execJob := ?_, finOK := ?_, muFree := ?_,
      muUniq := ?_, oTimerF := ?_, wgExec := ?_, oWgE := ?_, jCleanWg := ?_,
      jSigLen := ?_ }
  · intro k ph hph id b ho
    rcases hcase k ph hph with ⟨_, rfl⟩ | ⟨_, hold⟩
    · rw [howns] at ho; cases ho
    · exact hInv.owns k ph hold id b ho
  · intro k j phk phj hpk hpj hkj id b id' b' hok hoj
    rcases hcase k phk hpk with ⟨_, rfl⟩ | ⟨_, holdk⟩
    · rw [howns] at hok; cases hok
    · rcases hcase j phj hpj with ⟨_, rfl⟩ | ⟨_, holdj⟩
      · rw [howns] at hoj; cases hoj
      · exact hInv.ownsUniq k j phk phj holdk holdj hkj id b id' b' hok hoj
  · exact hInv.idsNodup
  · intro k id b hph
    rcases hcase k _ hph with ⟨_, heq⟩ | ⟨_, hold⟩
    · rw [← heq] at howns; simp [ownsOf] at howns
    · exact hInv.pend k id b hold
  · exact hInv.idsReg
  · intro b hfcb
    obtain ⟨h1, h2, h3, h4, k, oid, hk⟩ := hInv.openFresh b hfcb
    have hki : k ≠ i := by
      intro hc
      subst hc
      rcases hk with hk | hk | hk <;>
        (rw [hi] at hk; injection hk with hk2; rw [hk2] at holdop;
         simp [openerOf] at holdop)
    refine ⟨h1, h2, h3, h4, k, oid, ?_⟩
    rw [hne k hki]
    exact hk
  · intro k id b hph
    rcases hph with h | h | h | h <;>
      rcases hcase k _ h with ⟨_, heq⟩ | ⟨_, hold⟩
    · rw [← heq] at hop; simp [openerOf] at hop
    · exact hInv.openerPreExec k id b (Or.inl hold)
    · rw [← heq] at hop; simp [openerOf] at hop
    · exact hInv.openerPreExec k id b (Or.inr (Or.inl hold))
    · rw [← heq] at hop; simp [openerOf] at hop
    · exact hInv.openerPreExec k id b (Or.inr (Or.inr (Or.inl hold)))
    · rw [← heq] at hop; simp [openerOf] at hop
    · exact hInv.openerPreExec k id b (Or.inr (Or.inr (Or.inr hold)))
  · intro k j phk phj hpk hpj id b id' hok hoj
    rcases hcase k phk hpk with ⟨_, rfl⟩ | ⟨_, holdk⟩
    · rw [hop] at hok; cases hok
    · rcases hcase j phj hpj with ⟨_, rfl⟩ | ⟨_, holdj⟩
      · rw [hop] at hoj; cases hoj
      · exact hInv.openerUniq k j phk phj holdk holdj id b id' hok hoj
  · exact hInv.logRange
  · exact hInv.logCount
  · exact hInv.logPref
  · exact hInv.execJob
  · intro k id b res hph
    rcases hcase k _ hph with ⟨_, heq⟩ | ⟨_, hold⟩
    · exact absurd heq.symm (hnf id b res)
    · exact hInv.finOK k id b res hold
  · intro hmu k ph hph
    rcases hcase k ph hph with ⟨_, rfl⟩ | ⟨_, hold⟩
    · exact hhold
    · exact hInv.muFree hmu k ph hold
  · intro k j phk phj hpk hpj h1 h2
    rcases hcase k phk hpk with ⟨_, rfl⟩ | ⟨_, holdk⟩
    · rw [hhold] at h1; cases h1
    · rcases hcase j phj hpj with ⟨_, rfl⟩ | ⟨_, holdj⟩
      · rw [hhold] at h2; cases h2
      · exact hInv.muUniq k j phk phj holdk holdj h1 h2
  · intro k id b hph
    rcases hcase k _ hph with ⟨_, heq⟩ | ⟨_, hold⟩
    · rw [← heq] at howns; simp [ownsOf] at howns
    · exact hInv.oTimerF k id b hold
  · exact hInv.wgExec
  · intro k id b hph
    rcases hph with h | h <;> rcases hcase k _ h with ⟨_, heq⟩ | ⟨_, hold⟩
    · rw [← heq] at howns; simp [ownsOf] at howns
    · exact hInv.oWgE k id b (Or.inl hold)
    · rw [← heq] at howns; simp [ownsOf] at howns
    · exact hInv.oWgE k id b (Or.inr hold)
  · intro k id b hph
    rcases hcase k _ hph with ⟨_, heq⟩ | ⟨_, hold⟩
    · rw [← heq] at howns; simp [ownsOf] at howns
    · exact hInv.jCleanWg k id b hold
  · intro k id b hph
    rcases hph with h | h <;> rcases hcase k _ h with ⟨_, heq⟩ | ⟨_, hold⟩
    · rw [← heq] at howns; simp [ownsOf] at howns
    · exact hInv.jSigLen k id b (Or.inl hold)
    · rw [← heq] at howns; simp [ownsOf] at howns
    · exact hInv.jSigLen k id b (Or.inr hold)

/-- Preservation for any transition that only replaces thread `i`'s phase,
with the obligations of the new phase supplied semantically. -/
theorem inv_move (cfg : Cfg) (s : Sys) (i : Nat) (pOld pNew : Phase)
    (hInv : Inv cfg s) (hi : s.threads.get? i = some pOld)
    (hOwns : ∀ id b, ownsOf pNew = some (id, b) →
      b < s.batches.length ∧ assocLookup s.m id = some b)
    (hOwnsU : ∀ id b, ownsOf pNew = some (id, b) →
      ∀ j phj, j ≠ i → s.threads.get? j = some phj →
      ∀ id' b', ownsOf phj = some (id', b') → id ≠ id')
    (hPend : ∀ id b, pNew = .pJAppend id b → id ∉ (getB s b).ids)
    (hOpPre : ∀ id b, (pNew = .pOSelect id b ∨ pNew = .pOTimer id b ∨
      pNew = .pODetach id b ∨ pNew = .pOExec id b) →
      (getB s b).executed = false)
    (hOpU : ∀ id b, openerOf pNew = some (id, b) →
      ∀ j phj, j ≠ i → s.threads.get? j = some phj →
      ∀ id', openerOf phj = some (id', b) → False)
    (hFin : ∀ id b res, pNew = .pFin id b res →
      (getB s b).executed = true ∧ res = mkRes (getB s b) id)
    (hHold : holderOf pNew = true → s.fcMu = true)
    (hHoldU : holderOf pNew = true →
      ∀ j phj, j ≠ i → s.threads.get? j = some phj → holderOf phj = false)
    (hTimF : ∀ id b, pNew = .pOTimer id b → (getB s b).timerFired = true)
    (hOWg : ∀ id b, (pNew = .pOWg id b ∨ pNew = .pOClean id b) →
      (getB s b).executed = true)
    (hJCl : ∀ id b, pNew = .pJClean id b → (getB s b).wgDone = true)
    (hJSig : ∀ id b, (pNew = .pJSigLock id b ∨ pNew = .pJSend id b) →
      cfg.maxb ≤ ((getB s b).ids.length : Int))
    (hWit : ∀ oid b0, s.fcb = some b0 →
      (pOld = .pOSelect oid b0 ∨ pOld = .pOTimer oid b0 ∨
       pOld = .pODetach oid b0) →
      (pNew = .pOSelect oid b0 ∨ pNew = .pOTimer oid b0 ∨
       pNew = .pODetach oid b0)) :
    Inv cfg { s with threads := s.threads.set i pNew } := by
  set s' : Sys := { s with threads := s.threads.set i pNew } with hs'
  have hcase : ∀ k ph, s'.threads.get? k = some ph →
      (k = i ∧ ph = pNew) ∨ (k ≠ i ∧ s.threads.get? k = some ph) := by
    intro k ph hph
    exact getq_set_inv _ _ _ _ _ hph
  have hne : ∀ k, k ≠ i → s'.threads.get? k = s.threads.get? k := by
    intro k hk
    exact getq_set_ne _ _ _ _ hk
  have hself : s'.threads.get? i = some pNew := getq_set_self _ _ _ _ hi
  refine
    { owns := ?_, ownsUniq := ?_, idsNodup := ?_, pend := ?_, idsReg := ?_,
      openFresh := ?_, openerPreExec := ?_, openerUniq := ?_, logRange := ?_,
      logCount := ?_, logPref := ?_, execJob := ?_, finOK := ?_, muFree := ?_,
      muUniq := ?_, oTimerF := ?_, wgExec := ?_, oWgE := ?_, jCleanWg := ?_,
      jSigLen := ?_ }
  · intro k ph hph id0 b0 ho
    rcases hcase k ph hph with ⟨_, rfl⟩ | ⟨_, hold⟩
    · exact hOwns id0 b0 ho
    · exact hInv.owns k ph hold id0 b0 ho
  · intro k j phk phj hpk hpj hkj id0 b0 id' b' hok hoj
    rcases hcase k phk hpk with ⟨hki, rfl⟩ | ⟨hkne, holdk⟩
    · rcases hcase j phj hpj with ⟨hji, rfl⟩ | ⟨hjne, holdj⟩
      · exact absurd (hki.trans hji.symm) hkj
      · exact hOwnsU id0 b0 hok j phj (by omega) holdj id' b' hoj
    · rcases hcase j phj hpj with ⟨hji, rfl⟩ | ⟨hjne, holdj⟩
      · exact (hOwnsU id' b' hoj k phk (by omega) holdk id0 b0 hok).symm
      · exact hInv.ownsUniq k j phk phj holdk holdj hkj id0 b0 id' b' hok hoj
  · exact hInv.idsNodup
  · intro k id0 b0 hph
    rcases hcase k _ hph with ⟨_, heq⟩ | ⟨_, hold⟩
    · exact hPend id0 b0 heq.symm
    · exact hInv.pend k id0 b0 hold
  · exact hInv.idsReg
  · intro b0 hfcb
    obtain ⟨h1, h2, h3, h4, k, oid, hk⟩ := hInv.openFresh b0 hfcb
    by_cases hki : k = i
    · rw [hki] at hk
      rw [hi] at hk
      have hko : pOld = .pOSelect oid b0 ∨ pOld = .pOTimer oid b0 ∨
          pOld = .pODetach oid b0 := by
        rcases hk with hk | hk | hk
        · exact Or.inl (Option.some.inj hk)
        · exact Or.inr (Or.inl (Option.some.inj hk))
        · exact Or.inr (Or.inr (Option.some.inj hk))
      refine ⟨h1, h2, h3, h4, i, oid, ?_⟩
      rcases hWit oid b0 hfcb hko with hw | hw | hw <;> rw [← hw]
      · exact Or.inl hself
      · exact Or.inr (Or.inl hself)
      · exact Or.inr (Or.inr hself)
    · refine ⟨h1, h2, h3, h4, k, oid, ?_⟩
      rw [hne k hki]
      exact hk
  · intro k id0 b0 hph
    rcases hph with h | h | h | h <;>
      rcases hcase k _ h with ⟨_, heq⟩ | ⟨_, hold⟩
    · exact hOpPre id0 b0 (Or.inl heq.symm)
    · exact hInv.openerPreExec k id0 b0 (Or.inl hold)
    · exact hOpPre id0 b0 (Or.inr (Or.inl heq.symm))
    · exact hInv.openerPreExec k id0 b0 (Or.inr (Or.inl hold))
    · exact hOpPre id0 b0 (Or.inr (Or.inr (Or.inl heq.symm)))
    · exact hInv.openerPreExec k id0 b0 (Or.inr (Or.inr (Or.inl hold)))
    · exact hOpPre id0 b0 (Or.inr (Or.inr (Or.inr heq.symm)))
    · exact hInv.openerPreExec k id0 b0 (Or.inr (Or.inr (Or.inr hold)))
  · intro k j phk phj hpk hpj id0 b0 id' hok hoj
    rcases hcase k phk hpk with ⟨hki, rfl⟩ | ⟨hkne, holdk⟩
    · rcases hcase j phj hpj with ⟨hji, rfl⟩ | ⟨hjne, holdj⟩
      · rw [hki, hji]
      · exact (hOpU id0 b0 hok j phj hjne holdj id' hoj).elim
    · rcases hcase j phj hpj with ⟨hji, rfl⟩ | ⟨hjne, holdj⟩
      · exact (hOpU id' b0 hoj k phk hkne holdk id0 hok).elim
      · exact hInv.openerUniq k j phk phj holdk holdj id0 b0 id' hok hoj
  · exact hInv.logRange
  · exact hInv.logCount
  · exact hInv.logPref
  · exact hInv.execJob
  · intro k id0 b0 res hph
    rcases hcase k _ hph with ⟨_, heq⟩ | ⟨_, hold⟩
    · exact hFin id0 b0 res heq.symm
    · exact hInv.finOK k id0 b0 res hold
  · intro hmu k ph hph
    rcases hcase k ph hph with ⟨_, heq⟩ | ⟨_, hold⟩
    · rw [heq]
      by_contra hc
      have htrue : holderOf pNew = true := by
        revert hc; cases holderOf pNew <;> simp
      have h6 := hHold htrue
      rw [hmu] at h6
      cases h6
    · exact hInv.muFree hmu k ph hold
  · intro k j phk phj hpk hpj h1 h2
    rcases hcase k phk hpk with ⟨hki, rfl⟩ | ⟨hkne, holdk⟩
    · rcases hcase j phj hpj with ⟨hji, rfl⟩ | ⟨hjne, holdj⟩
      · rw [hki, hji]
      · have := hHoldU h1 j phj (by omega) holdj
        rw [this] at h2
        cases h2
    · rcases hcase j phj hpj with ⟨hji, rfl⟩ | ⟨hjne, holdj⟩
      · have := hHoldU h2 k phk (by omega) holdk
        rw [this] at h1
        cases h1
      · exact hInv.muUniq k j phk phj holdk holdj h1 h2
  · intro k id0 b0 hph
    rcases hcase k _ hph with ⟨_, heq⟩ | ⟨_, hold⟩
    · exact hTimF id0 b0 heq.symm
    · exact hInv.oTimerF k id0 b0 hold
  · exact hInv.wgExec
  · intro k id0 b0 hph
    rcases hph with h | h <;> rcases hcase k _ h with ⟨_, heq⟩ | ⟨_, hold⟩
    · exact hOWg id0 b0 (Or.inl heq.symm)
    · exact hInv.oWgE k id0 b0 (Or.inl hold)
    · exact hOWg id0 b0 (Or.inr heq.symm)
    · exact hInv.oWgE k id0 b0 (Or.inr hold)
  · intro k id0 b0 hph
    rcases hcase k _ hph with ⟨_, heq⟩ | ⟨_, hold⟩
    · exact hJCl id0 b0 heq.symm
    · exact hInv.jCleanWg k id0 b0 hold
  · intro k id0 b0 hph
    rcases hph with h | h <;> rcases hcase k _ h with ⟨_, heq⟩ | ⟨_, hold⟩
    · exact hJSig id0 b0 (Or.inl heq.symm)
    · exact hInv.jSigLen k id0 b0 (Or.inl hold)
    · exact hJSig id0 b0 (Or.inr heq.symm)
    · exact hInv.jSigLen k id0 b0 (Or.inr hold)

/-- Preservation for acquiring `fc.mu` and moving to a sender phase
(singlefleet.go:81 and 138/147): the state change is `fcMu := true` plus the
thread move. -/
theorem inv_lock (cfg : Cfg) (s : Sys) (i : Nat) (pOld pNew : Phase)
    (hInv : Inv cfg s) (hi : s.threads.get? i = some pOld)
    (hmu : s.fcMu = false)
    (hOwns : ∀ id b, ownsOf pNew = some (id, b) →
      b < s.batches.length ∧ assocLookup s.m id = some b)
    (hOwnsU : ∀ id b, ownsOf pNew = some (id, b) →
      ∀ j phj, j ≠ i → s.threads.get? j = some phj →
      ∀ id' b', ownsOf phj = some (id', b') → id ≠ id')
    (hPend : ∀ id b, pNew ≠ .pJAppend id b)
    (hOp : openerOf pNew = none)
    (hFin : ∀ id b res, pNew ≠ .pFin id b res)
    (hTimF : ∀ id b, pNew ≠ .pOTimer id b)
    (hOWg : ∀ id b, pNew ≠ .pOWg id b ∧ pNew ≠ .pOClean id b)
    (hJCl : ∀ id b, pNew ≠ .pJClean id b)
    (hJSig : ∀ id b, (pNew = .pJSigLock id b ∨ pNew = .pJSend id b) →
      cfg.maxb ≤ ((getB s b).ids.length : Int))
    (holdop : openerOf pOld = none) :
    Inv cfg { s with fcMu := true, threads := s.threads.set i pNew } := by
  set s' : Sys := { s with fcMu := true, threads := s.threads.set i pNew }
    with hs'
  have hcase : ∀ k ph, s'.threads.get? k = some ph →
      (k = i ∧ ph = pNew) ∨ (k ≠ i ∧ s.threads.get? k = some ph) := by
    intro k ph hph
    exact getq_set_inv _ _ _ _ _ hph
  have hne : ∀ k, k ≠ i → s'.threads.get? k = s.threads.get? k := by
    intro k hk
    exact getq_set_ne _ _ _ _ hk
  refine
    { owns := ?_, ownsUniq := ?_, idsNodup := ?_, pend := ?_, idsReg := ?_,
      openFresh := ?_, openerPreExec := ?_, openerUniq := ?_, logRange := ?_,
      logCount := ?_, logPref := ?_, execJob := ?_, finOK := ?_, muFree := ?_,
      muUniq := ?_, oTimerF := ?_, wgExec := ?_, oWgE := ?_, jCleanWg := ?_,
      jSigLen := ?_ }
  · intro k ph hph id0 b0 ho
    rcases hcase k ph hph with ⟨_, rfl⟩ | ⟨_, hold⟩
    · exact hOwns id0 b0 ho
    · exact hInv.owns k ph hold id0 b0 ho
  · intro k j phk phj hpk hpj hkj id0 b0 id' b' hok hoj
    rcases hcase k phk hpk with ⟨hki, rfl⟩ | ⟨hkne, holdk⟩
    · rcases hcase j phj hpj with ⟨hji, rfl⟩ | ⟨hjne, holdj⟩
      · exact absurd (hki.trans hji.symm) hkj
      · exact hOwnsU id0 b0 hok j phj hjne holdj id' b' hoj
    · rcases hcase j phj hpj with ⟨hji, rfl⟩ | ⟨hjne, holdj⟩
      · exact (hOwnsU id' b' hoj k phk hkne holdk id0 b0 hok).symm
      · exact hInv.ownsUniq k j phk phj holdk holdj hkj id0 b0 id' b' hok hoj
  · exact hInv.idsNodup
  · intro k id0 b0 hph
    rcases hcase k _ hph with ⟨_, heq⟩ | ⟨_, hold⟩
    · exact absurd heq.symm (hPend id0 b0)
    · exact hInv.pend k id0 b0 hold
  · exact hInv.idsReg
  · intro b0 hfcb
    obtain ⟨h1, h2, h3, h4, k, oid, hk⟩ := hInv.openFresh b0 hfcb
    have hki : k ≠ i := by
      intro hc
      rw [hc, hi] at hk
      rcases hk with hk | hk | hk <;>
        (rw [Option.some.inj hk] at holdop; simp [openerOf] at holdop)
    refine ⟨h1, h2, h3, h4, k, oid, ?_⟩
    rw [hne k hki]
    exact hk
  · intro k id0 b0 hph
    rcases hph with h | h | h | h <;>
      rcases hcase k _ h with ⟨_, heq⟩ | ⟨_, hold⟩
    · rw [← heq] at hOp; simp [openerOf] at hOp
    · exact hInv.openerPreExec k id0 b0 (Or.inl hold)
    · rw [← heq] at hOp; simp [openerOf] at hOp
    · exact hInv.openerPreExec k id0 b0 (Or.inr (Or.inl hold))
    · rw [← heq] at hOp; simp [openerOf] at hOp
    · exact hInv.openerPreExec k id0 b0 (Or.inr (Or.inr (Or.inl hold)))
    · rw [← heq] at hOp; simp [openerOf] at hOp
    · exact hInv.openerPreExec k id0 b0 (Or.inr (Or.inr (Or.inr hold)))
  · intro k j phk phj hpk hpj id0 b0 id' hok hoj
    rcases hcase k phk hpk with ⟨hki, rfl⟩ | ⟨hkne, holdk⟩
    · rw [hOp] at hok; cases hok
    · rcases hcase j phj hpj with ⟨hji, rfl⟩ | ⟨hjne, holdj⟩
      · rw [hOp] at hoj; cases hoj
      · exact hInv.openerUniq k j phk phj holdk holdj id0 b0 id' hok hoj
  · exact hInv.logRange
  · exact hInv.logCount
  · exact hInv.logPref
  · exact hInv.execJob
  · intro k id0 b0 res hph
    rcases hcase k _ hph with ⟨_, heq⟩ | ⟨_, hold⟩
    · exact absurd heq.symm (hFin id0 b0 res)
    · exact hInv.finOK k id0 b0 res hold
  · intro hmu0
    exact absurd hmu0 (by simp [hs'])
  · intro k j phk phj hpk hpj h1 h2
    rcases hcase k phk hpk with ⟨hki, rfl⟩ | ⟨hkne, holdk⟩
    · rcases hcase j phj hpj with ⟨hji, rfl⟩ | ⟨hjne, holdj⟩
      · rw [hki, hji]
      · rw [hInv.muFree hmu j phj holdj] at h2
        cases h2
    · rw [hInv.muFree hmu k phk holdk] at h1
      cases h1
  · intro k id0 b0 hph
    rcases hcase k _ hph with ⟨_, heq⟩ | ⟨_, hold⟩
    · exact absurd heq.symm (hTimF id0 b0)
    · exact hInv.oTimerF k id0 b0 hold
  · exact hInv.wgExec
  · intro k id0 b0 hph
    rcases hph with h | h <;> rcases hcase k _ h with ⟨_, heq⟩ | ⟨_, hold⟩
    · exact absurd heq.symm (hOWg id0 b0).1
    · exact hInv.oWgE k id0 b0 (Or.inl hold)
    · exact absurd heq.symm (hOWg id0 b0).2
    · exact hInv.oWgE k id0 b0 (Or.inr hold)
  · intro k id0 b0 hph
    rcases hcase k _ hph with ⟨_, heq⟩ | ⟨_, hold⟩
    · exact absurd heq.symm (hJCl id0 b0)
    · exact hInv.jCleanWg k id0 b0 hold
  · intro k id0 b0 hph
    rcases hph with h | h <;> rcases hcase k _ h with ⟨_, heq⟩ | ⟨_, hold⟩
    · exact hJSig id0 b0 (Or.inl heq.symm)
    · exact hInv.jSigLen k id0 b0 (Or.inl hold)
    · exact hJSig id0 b0 (Or.inr heq.symm)
    · exact hInv.jSigLen k id0 b0 (Or.inr hold)

theorem mkRes_congr {b1 b2 : BatchSt} (hv : b1.vals = b2.vals)
    (he : b1.err = b2.err) (id : String) : mkRes b1 id = mkRes b2 id := by
  rw [mkRes, mkRes, hv, he]

/-- Preservation for updating one batch record (and possibly clearing the
open slot), provided the semantically relevant fields evolve monotonically. -/
theorem inv_setbatch (cfg : Cfg) (s : Sys) (b : Nat) (bst' : BatchSt)
    (fcb' : Option Nat) (hInv : Inv cfg s) (hb : b < s.batches.length)
    (hfcb' : fcb' = s.fcb ∨ fcb' = none)
    (hids : bst'.ids = (getB s b).ids)
    (hvals : bst'.vals = (getB s b).vals)
    (herr : bst'.err = (getB s b).err)
    (hexec : bst'.executed = (getB s b).executed)
    (hwgMono : (getB s b).wgDone = true → bst'.wgDone = true)
    (hwgE : bst'.wgDone = true → bst'.executed = true)
    (htim : (getB s b).timerFired = true → bst'.timerFired = true)
    (hOpenB : fcb' = some b → bst'.wgDone = false ∧ bst'.csigClosed = false) :
    Inv cfg { s with fcb := fcb', batches := s.batches.set b bst' } := by
  set s' : Sys := { s with fcb := fcb', batches := s.batches.set b bst' }
    with hs'
  have hgb : ∀ b2, getB s' b2 = if b2 = b then bst' else getB s b2 := by
    intro b2
    exact getD_set_cases s.batches b b2 _ hb
  have hids2 : ∀ b2, (getB s' b2).ids = (getB s b2).ids := by
    intro b2; rw [hgb]; split
    · rename_i h; rw [h, hids]
    · rfl
  have hvals2 : ∀ b2, (getB s' b2).vals = (getB s b2).vals := by
    intro b2; rw [hgb]; split
    · rename_i h; rw [h, hvals]
    · rfl
  have herr2 : ∀ b2, (getB s' b2).err = (getB s b2).err := by
    intro b2; rw [hgb]; split
    · rename_i h; rw [h, herr]
    · rfl
  have hexec2 : ∀ b2, (getB s' b2).executed = (getB s b2).executed := by
    intro b2; rw [hgb]; split
    · rename_i h; rw [h, hexec]
    · rfl
  have hmk : ∀ b2 id, mkRes (getB s' b2) id = mkRes (getB s b2) id := by
    intro b2 id
    exact mkRes_congr (hvals2 b2) (herr2 b2) id
  have hlen : s'.batches.length = s.batches.length := by
    rw [hs']; exact List.length_set s.batches b _
  refine
    { owns := ?_, ownsUniq := ?_, idsNodup := ?_, pend := ?_, idsReg := ?_,
      openFresh := ?_, openerPreExec := ?_, openerUniq := ?_, logRange := ?_,
      logCount := ?_, logPref := ?_, execJob := ?_, finOK := ?_, muFree := ?_,
      muUniq := ?_, oTimerF := ?_, wgExec := ?_, oWgE := ?_, jCleanWg := ?_,
      jSigLen := ?_ }
  · intro i ph hph id b0 ho
    rw [hlen]
    exact hInv.owns i ph hph id b0 ho
  · exact hInv.ownsUniq
  · intro b0; rw [hids2]; exact hInv.idsNodup b0
  · intro i id b0 hph
    rw [hids2]
    exact hInv.pend i id b0 hph
  · intro b0 hfcb0 x hx
    rw [hids2] at hx
    have hf2 : fcb' = some b0 := hfcb0
    rcases hfcb' with h | h
    · rw [h] at hf2
      exact hInv.idsReg b0 hf2 x hx
    · rw [h] at hf2; cases hf2
  · intro b0 hfcb0
    have hf2 : fcb' = some b0 := hfcb0
    rcases hfcb' with h | h
    · rw [h] at hf2
      obtain ⟨h1, h2, h3, h4, h5⟩ := hInv.openFresh b0 hf2
      rw [hlen, hexec2]
      refine ⟨h1, h2, ?_, ?_, h5⟩
      · rw [hgb]
        split
        · rename_i hbb
          exact (hOpenB (by rw [h, hf2, hbb])).1
        · exact h3
      · rw [hgb]
        split
        · rename_i hbb
          exact (hOpenB (by rw [h, hf2, hbb])).2
        · exact h4
    · rw [h] at hf2; cases hf2
  · intro i id b0 hph
    rw [hexec2]
    exact hInv.openerPreExec i id b0 hph
  · exact hInv.openerUniq
  · intro e he; rw [hlen]; exact hInv.logRange e he
  · intro b0; rw [hexec2]; exact hInv.logCount b0
  · intro e he
    obtain ⟨h1, t, h2⟩ := hInv.logPref e he
    exact ⟨h1, t, by rw [hids2]; exact h2⟩
  · intro b0 hex
    rw [hexec2] at hex
    rw [hvals2, herr2]
    exact hInv.execJob b0 hex
  · intro i id b0 res hph
    rw [hexec2, hmk]
    exact hInv.finOK i id b0 res hph
  · exact hInv.muFree
  · exact hInv.muUniq
  · intro i id b0 hph
    rw [hgb]
    split
    · rename_i hbb
      refine htim ?_
      have := hInv.oTimerF i id b0 hph
      rw [hbb] at this
      exact this
    · exact hInv.oTimerF i id b0 hph
  · intro b0 h1
    rw [hexec2]
    rw [hgb] at h1
    by_cases hbb : b0 = b
    · rw [if_pos hbb] at h1
      rw [hbb, ← hexec]
      exact hwgE h1
    · rw [if_neg hbb] at h1
      exact hInv.wgExec b0 h1
  · intro i id b0 hph
    rw [hexec2]
    exact hInv.oWgE i id b0 hph
  · intro i id b0 hph
    rw [hgb]
    split
    · rename_i hbb
      refine hwgMono ?_
      have := hInv.jCleanWg i id b0 hph
      rw [hbb] at this
      exact this
    · exact hInv.jCleanWg i id b0 hph
  · intro i id b0 hph
    rw [hids2]
    exact hInv.jSigLen i id b0 hph

/-- Preservation for deleting a registry entry whose owner has finished
(singlefleet.go:91, 128). -/
theorem inv_erase (cfg : Cfg) (s : Sys) (id : String) (hInv : Inv cfg s)
    (hno : ∀ k phk, s.threads.get? k = some phk → ∀ b0,
      ownsOf phk ≠ some (id, b0))
    (hids : ∀ b0, s.fcb = some b0 → id ∉ (getB s b0).ids) :
    Inv cfg { s with m := regErase s.m id } := by
  refine
    { owns := ?_, ownsUniq := hInv.ownsUniq, idsNodup := hInv.idsNodup,
      pend := hInv.pend, idsReg := ?_, openFresh := hInv.openFresh,
      openerPreExec := hInv.openerPreExec, openerUniq := hInv.openerUniq,
      logRange := hInv.logRange, logCount := hInv.logCount,
      logPref := hInv.logPref, execJob := hInv.execJob, finOK := hInv.finOK,
      muFree := hInv.muFree, muUniq := hInv.muUniq, oTimerF := hInv.oTimerF,
      wgExec := hInv.wgExec, oWgE := hInv.oWgE, jCleanWg := hInv.jCleanWg,
      jSigLen := hInv.jSigLen }
  · intro k ph hph id0 b0 ho
    obtain ⟨h1, h2⟩ := hInv.owns k ph hph id0 b0 ho
    refine ⟨h1, ?_⟩
    have hne : id0 ≠ id := by
      intro hc
      rw [hc] at ho
      exact hno k ph hph b0 ho
    show assocLookup (regErase s.m id) id0 = some b0
    rw [assocLookup_erase, if_neg hne]
    exact h2
  · intro b0 hfcb x hx
    have hne : x ≠ id := by
      intro hc
      rw [hc] at hx
      exact hids b0 hfcb hx
    show assocLookup (regErase s.m id) x = some b0
    rw [assocLookup_erase, if_neg hne]
    exact hInv.idsReg b0 hfcb x hx

/-- Preservation for registering a fresh identifier
(singlefleet.go:76, 107). -/
theorem inv_minsert (cfg : Cfg) (s : Sys) (id : String) (b : Nat)
    (hInv : Inv cfg s) (hlook : assocLookup s.m id = none) :
    Inv cfg { s with m := (id, b) :: s.m } := by
  have hcons : ∀ x, x ≠ id →
      assocLookup ((id, b) :: s.m) x = assocLookup s.m x := by
    intro x hx
    show (if id = x then some b else assocLookup s.m x) = assocLookup s.m x
    rw [if_neg fun hc => hx hc.symm]
  refine
    { owns := ?_, ownsUniq := hInv.ownsUniq, idsNodup := hInv.idsNodup,
      pend := hInv.pend, idsReg := ?_, openFresh := hInv.openFresh,
      openerPreExec := hInv.openerPreExec, openerUniq := hInv.openerUniq,
      logRange := hInv.logRange, logCount := hInv.logCount,
      logPref := hInv.logPref, execJob := hInv.execJob, finOK := hInv.finOK,
      muFree := hInv.muFree, muUniq := hInv.muUniq, oTimerF := hInv.oTimerF,
      wgExec := hInv.wgExec, oWgE := hInv.oWgE, jCleanWg := hInv.jCleanWg,
      jSigLen := hInv.jSigLen }
  · intro k ph hph id0 b0 ho
    obtain ⟨h1, h2⟩ := hInv.owns k ph hph id0 b0 ho
    have hne : id0 ≠ id := by
      intro hc
      rw [hc, hlook] at h2
      cases h2
    exact ⟨h1, by rw [hcons id0 hne]; exact h2⟩
  · intro b0 hfcb x hx
    have h2 := hInv.idsReg b0 hfcb x hx
    have hne : x ≠ id := by
      intro hc
      rw [hc, hlook] at h2
      cases h2
    rw [hcons x hne]
    exact h2

/-- Preservation for installing a fresh open batch in the open slot
(singlefleet.go:106). -/
theorem inv_setfcb (cfg : Cfg) (s : Sys) (b : Nat) (hInv : Inv cfg s)
    (hb : b < s.batches.length)
    (hexec : (getB s b).executed = false)
    (hwg : (getB s b).wgDone = false)
    (hcsig : (getB s b).csigClosed = false)
    (hwit : ∃ i id, s.threads.get? i = some (.pOSelect id b) ∨
      s.threads.get? i = some (.pOTimer id b) ∨
      s.threads.get? i = some (.pODetach id b))
    (hreg : ∀ x ∈ (getB s b).ids, assocLookup s.m x = some b) :
    Inv cfg { s with fcb := some b } := by
  refine
    { owns := hInv.owns, ownsUniq := hInv.ownsUniq,
      idsNodup := hInv.idsNodup, pend := hInv.pend, idsReg := ?_,
      openFresh := ?_, openerPreExec := hInv.openerPreExec,
      openerUniq := hInv.openerUniq, logRange := hInv.logRange,
      logCount := hInv.logCount, logPref := hInv.logPref,
      execJob := hInv.execJob, finOK := hInv.finOK, muFree := hInv.muFree,
      muUniq := hInv.muUniq, oTimerF := hInv.oTimerF, wgExec := hInv.wgExec,
      oWgE := hInv.oWgE, jCleanWg := hInv.jCleanWg, jSigLen := hInv.jSigLen }
  · intro b0 hfcb x hx
    have hb0 : b = b0 := Option.some.inj hfcb
    rw [← hb0] at hx ⊢
    exact hreg x hx
  · intro b0 hfcb
    have hb0 : b = b0 := Option.some.inj hfcb
    rw [← hb0]
    exact ⟨hb, hexec, hwg, hcsig, hwit⟩

/-- Preservation for allocating a fresh batch record
(singlefleet.go:99-105). -/
theorem inv_batchappend (cfg : Cfg) (s : Sys) (nb : BatchSt)
    (hInv : Inv cfg s) (hnodup : nb.ids.Nodup) (hexec : nb.executed = false)
    (hwg : nb.wgDone = false) :
    Inv cfg { s with batches := s.batches ++ [nb] } := by
  set s' : Sys := { s with batches := s.batches ++ [nb] } with hs'
  have hgb : ∀ b2, getB s' b2
      = if b2 = s.batches.length then nb else getB s b2 := by
    intro b2
    exact getD_append_cases s.batches nb b2
  have hlen : s'.batches.length = s.batches.length + 1 := by
    rw [hs']; simp
  have hpres : ∀ b2, b2 < s.batches.length → getB s' b2 = getB s b2 := by
    intro b2 h2
    rw [hgb, if_neg (by omega)]
  refine
    { owns := ?_, ownsUniq := hInv.ownsUniq, idsNodup := ?_, pend := ?_,
      idsReg := ?_, openFresh := ?_, openerPreExec := ?_,
      openerUniq := hInv.openerUniq, logRange := ?_, logCount := ?_,
      logPref := ?_, execJob := ?_, finOK := ?_, muFree := hInv.muFree,
      muUniq := hInv.muUniq, oTimerF := ?_, wgExec := ?_, oWgE := ?_,
      jCleanWg := ?_, jSigLen := ?_ }
  · intro k ph hph id0 b0 ho
    obtain ⟨h1, h2⟩ := hInv.owns k ph hph id0 b0 ho
    exact ⟨by omega, h2⟩
  · intro b0
    rw [hgb]
    split
    · exact hnodup
    · exact hInv.idsNodup b0
  · intro k id0 b0 hph
    have hlt := (hInv.owns k _ hph id0 b0 (by rw [ownsOf])).1
    rw [hpres b0 hlt]
    exact hInv.pend k id0 b0 hph
  · intro b0 hfcb x hx
    have hlt := (hInv.openFresh b0 hfcb).1
    rw [hpres b0 hlt] at hx
    exact hInv.idsReg b0 hfcb x hx
  · intro b0 hfcb
    obtain ⟨h1, h2, h3, h4, h5⟩ := hInv.openFresh b0 hfcb
    rw [hpres b0 h1]
    exact ⟨by omega, h2, h3, h4, h5⟩
  · intro k id0 b0 hph
    have ho : ownsOf ((s.threads.get? k).getD .pPanic) = some (id0, b0) := by
      rcases hph with h | h | h | h <;> rw [h] <;> rfl
    have hget : ∃ ph, s.threads.get? k = some ph ∧ ownsOf ph = some (id0, b0) := by
      cases hq : s.threads.get? k with
      | none => rw [hq] at ho; simp [ownsOf] at ho
      | some ph => rw [hq] at ho; exact ⟨ph, rfl, ho⟩
    obtain ⟨ph, hph2, ho2⟩ := hget
    have hlt := (hInv.owns k ph hph2 id0 b0 ho2).1
    rw [hpres b0 hlt]
    exact hInv.openerPreExec k id0 b0 hph
  · intro e he
    have := hInv.logRange e he
    omega
  · intro b0
    rw [hgb]
    by_cases hbb : b0 = s.batches.length
    · rw [if_pos hbb, hexec]
      refine countB_zero _ _ ?_
      intro e he
      have := hInv.logRange e he
      omega
    · rw [if_neg hbb]
      exact hInv.logCount b0
  · intro e he
    obtain ⟨h1, t, h2⟩ := hInv.logPref e he
    have hlt := hInv.logRange e he
    rw [hpres e.1 hlt]
    exact ⟨h1, t, h2⟩
  · intro b0 hex
    rw [hgb] at hex
    by_cases hbb : b0 = s.batches.length
    · rw [if_pos hbb, hexec] at hex; cases hex
    · rw [if_neg hbb] at hex
      rw [hpres b0 (executed_lt hex)]
      exact hInv.execJob b0 hex
  · intro k id0 b0 res hph
    obtain ⟨h1, h2⟩ := hInv.finOK k id0 b0 res hph
    rw [hpres b0 (executed_lt h1)]
    exact ⟨h1, h2⟩
  · intro k id0 b0 hph
    have hlt := (hInv.owns k _ hph id0 b0 (by rw [ownsOf])).1
    rw [hpres b0 hlt]
    exact hInv.oTimerF k id0 b0 hph
  · intro b0 h1
    rw [hgb] at h1 ⊢
    by_cases hbb : b0 = s.batches.length
    · rw [if_pos hbb, hwg] at h1; cases h1
    · rw [if_neg hbb] at h1 ⊢
      exact hInv.wgExec b0 h1
  · intro k id0 b0 hph
    have hget : ∃ ph, s.threads.get? k = some ph ∧ ownsOf ph = some (id0, b0) := by
      rcases hph with h | h
      · exact ⟨_, h, rfl⟩
      · exact ⟨_, h, rfl⟩
    obtain ⟨ph, hph2, ho2⟩ := hget
    have hlt := (hInv.owns k ph hph2 id0 b0 ho2).1
    rw [hpres b0 hlt]
    exact hInv.oWgE k id0 b0 hph
  · intro k id0 b0 hph
    have hlt := (hInv.owns k _ hph id0 b0 (by rw [ownsOf])).1
    rw [hpres b0 hlt]
    exact hInv.jCleanWg k id0 b0 hph
  · intro k id0 b0 hph
    have hget : ∃ ph, s.threads.get? k = some ph ∧ ownsOf ph = some (id0, b0) := by
      rcases hph with h | h
      · exact ⟨_, h, rfl⟩
      · exact ⟨_, h, rfl⟩
    obtain ⟨ph, hph2, ho2⟩ := hget
    have hlt := (hInv.owns k ph hph2 id0 b0 ho2).1
    rw [hpres b0 hlt]
    exact hInv.jSigLen k id0 b0 hph

/-- Preservation for the joiner's append `b.ids = append(b.ids, id)` and the
size-threshold branch (singlefleet.go:78-83). -/
theorem inv_append (cfg : Cfg) (s : Sys) (i : Nat) (id : String) (b : Nat)
    (hInv : Inv cfg s) (hi : s.threads.get? i = some (.pJAppend id b))
    (nxt : Phase)
    (hnxt : (nxt = Phase.pJSigLock id b ∧
        cfg.maxb ≤ (((getB s b).ids ++ [id]).length : Int)) ∨
      nxt = Phase.pJUnlock id b) :
    Inv cfg { s with
      batches := s.batches.set b
        { getB s b with muHeld := true, ids := (getB s b).ids ++ [id] },
      threads := s.threads.set i nxt } := by
  set bst' : BatchSt :=
    { getB s b with muHeld := true, ids := (getB s b).ids ++ [id] } with hbst
  set s' : Sys := { s with
    batches := s.batches.set b bst',
    threads := s.threads.set i nxt } with hs'
  have hb : b < s.batches.length :=
    (hInv.owns i _ hi id b (by rw [ownsOf])).1
  have hlook : assocLookup s.m id = some b :=
    (hInv.owns i _ hi id b (by rw [ownsOf])).2
  have hpend : id ∉ (getB s b).ids := hInv.pend i id b hi
  have hcase : ∀ k ph, s'.threads.get? k = some ph →
      (k = i ∧ ph = nxt) ∨ (k ≠ i ∧ s.threads.get? k = some ph) := by
    intro k ph hph
    exact getq_set_inv _ _ _ _ _ hph
  have hne : ∀ k, k ≠ i → s'.threads.get? k = s.threads.get? k := by
    intro k hk
    exact getq_set_ne _ _ _ _ hk
  have hnxtOwns : ownsOf nxt = some (id, b) := by
    rcases hnxt with ⟨h, _⟩ | h <;> rw [h] <;> rfl
  have hnxtOp : openerOf nxt = none := by
    rcases hnxt with ⟨h, _⟩ | h <;> rw [h] <;> rfl
  have hnxtHold : holderOf nxt = false := by
    rcases hnxt with ⟨h, _⟩ | h <;> rw [h] <;> rfl
  have hgb : ∀ b2, getB s' b2 = if b2 = b then bst' else getB s b2 := by
    intro b2
    exact getD_set_cases s.batches b b2 _ hb
  have hidsb : (getB s' b).ids = (getB s b).ids ++ [id] := by
    rw [hgb, if_pos rfl]
  have hvals2 : ∀ b2, (getB s' b2).vals = (getB s b2).vals := by
    intro b2; rw [hgb]; split
    · rename_i h; rw [h]
    · rfl
  have herr2 : ∀ b2, (getB s' b2).err = (getB s b2).err := by
    intro b2; rw [hgb]; split
    · rename_i h; rw [h]
    · rfl
  have hexec2 : ∀ b2, (getB s' b2).executed = (getB s b2).executed := by
    intro b2; rw [hgb]; split
    · rename_i h; rw [h]
    · rfl
  have hwg2 : ∀ b2, (getB s' b2).wgDone = (getB s b2).wgDone := by
    intro b2; rw [hgb]; split
    · rename_i h; rw [h]
    · rfl
  have hcsig2 : ∀ b2, (getB s' b2).csigClosed = (getB s b2).csigClosed := by
    intro b2; rw [hgb]; split
    · rename_i h; rw [h]
    · rfl
  have htim2 : ∀ b2, (getB s' b2).timerFired = (getB s b2).timerFired := by
    intro b2; rw [hgb]; split
    · rename_i h; rw [h]
    · rfl
  have hids2 : ∀ b2, b2 ≠ b → (getB s' b2).ids = (getB s b2).ids := by
    intro b2 h2; rw [hgb, if_neg h2]
  have hmk : ∀ b2 id0, mkRes (getB s' b2) id0 = mkRes (getB s b2) id0 := by
    intro b2 id0
    exact mkRes_congr (hvals2 b2) (herr2 b2) id0
  have hlen : s'.batches.length = s.batches.length := by
    rw [hs']; exact List.length_set s.batches b _
  refine
    { owns := ?_, ownsUniq := ?_, idsNodup := ?_, pend := ?_, idsReg := ?_,
      openFresh := ?_, openerPreExec := ?_, openerUniq := ?_, logRange := ?_,
      logCount := ?_, logPref := ?_, execJob := ?_, finOK := ?_, muFree := ?_,
      muUniq := ?_, oTimerF := ?_, wgExec := ?_, oWgE := ?_, jCleanWg := ?_,
      jSigLen := ?_ }
  · intro k ph hph id0 b0 ho
    rw [hlen]
    rcases hcase k ph hph with ⟨_, rfl⟩ | ⟨_, hold⟩
    · rw [hnxtOwns] at ho
      obtain ⟨rfl, rfl⟩ : id = id0 ∧ b = b0 := by
        injection ho with h2
        exact ⟨congrArg Prod.fst h2, congrArg Prod.snd h2⟩
      exact ⟨hb, hlook⟩
    · exact hInv.owns k ph hold id0 b0 ho
  · intro k j phk phj hpk hpj hkj id0 b0 id' b' hok hoj
    rcases hcase k phk hpk with ⟨hki, rfl⟩ | ⟨hkne, holdk⟩
    · rcases hcase j phj hpj with ⟨hji, rfl⟩ | ⟨hjne, holdj⟩
      · exact absurd (hki.trans hji.symm) hkj
      · rw [hnxtOwns] at hok
        obtain ⟨rfl, rfl⟩ : id = id0 ∧ b = b0 := by
          injection hok with h2
          exact ⟨congrArg Prod.fst h2, congrArg Prod.snd h2⟩
        exact hInv.ownsUniq i j _ phj hi holdj (by omega) id b id' b'
          (by rw [ownsOf]) hoj
    · rcases hcase j phj hpj with ⟨hji, rfl⟩ | ⟨hjne, holdj⟩
      · rw [hnxtOwns] at hoj
        obtain ⟨rfl, rfl⟩ : id = id' ∧ b = b' := by
          injection hoj with h2
          exact ⟨congrArg Prod.fst h2, congrArg Prod.snd h2⟩
        exact (hInv.ownsUniq i k _ phk hi holdk (by omega) id b id0 b0
          (by rw [ownsOf]) hok).symm
      · exact hInv.ownsUniq k j phk phj holdk holdj hkj id0 b0 id' b' hok hoj
  · intro b2
    rw [hgb]
    split
    · exact nodup_snoc (hInv.idsNodup b) hpend
    · exact hInv.idsNodup b2
  · intro k id0 b0 hph
    rcases hcase k _ hph with ⟨_, heq⟩ | ⟨hkne, hold⟩
    · rcases hnxt with ⟨h, _⟩ | h <;> rw [h] at heq <;> simp at heq
    · have hold2 := hInv.pend k id0 b0 hold
      by_cases hbb : b0 = b
      · subst hbb
        rw [hidsb]
        have hne2 : id0 ≠ id :=
          hInv.ownsUniq k i _ _ hold hi hkne id0 b0 id b0 (by rw [ownsOf])
            (by rw [ownsOf])
        simp [List.mem_append]
        exact ⟨hold2, hne2⟩
      · rw [hids2 b0 hbb]
        exact hold2
  · intro b0 hfcb x hx
    by_cases hbb : b0 = b
    · subst hbb
      rw [hidsb] at hx
      rcases List.mem_append.mp hx with hx2 | hx2
      · exact hInv.idsReg b0 hfcb x hx2
      · have : x = id := by simpa using hx2
        rw [this]
        exact hlook
    · rw [hids2 b0 hbb] at hx
      exact hInv.idsReg b0 hfcb x hx
  · intro b0 hfcb
    obtain ⟨h1, h2, h3, h4, k, oid, hk⟩ := hInv.openFresh b0 hfcb
    have hki : k ≠ i := by
      intro hc
      rw [hc, hi] at hk
      rcases hk with hk | hk | hk <;> simp at hk
    rw [hlen, hexec2, hwg2, hcsig2]
    refine ⟨h1, h2, h3, h4, k, oid, ?_⟩
    rw [hne k hki]
    exact hk
  · intro k id0 b0 hph
    rw [hexec2]
    have hph2 : s.threads.get? k = some (.pOSelect id0 b0) ∨
        s.threads.get? k = some (.pOTimer id0 b0) ∨
        s.threads.get? k = some (.pODetach id0 b0) ∨
        s.threads.get? k = some (.pOExec id0 b0) := by
      rcases hph with h | h | h | h <;>
        rcases hcase k _ h with ⟨_, heq⟩ | ⟨_, hold⟩
      · rw [← heq] at hnxtOp; simp [openerOf] at hnxtOp
      · exact Or.inl hold
      · rw [← heq] at hnxtOp; simp [openerOf] at hnxtOp
      · exact Or.inr (Or.inl hold)
      · rw [← heq] at hnxtOp; simp [openerOf] at hnxtOp
      · exact Or.inr (Or.inr (Or.inl hold))
      · rw [← heq] at hnxtOp; simp [openerOf] at hnxtOp
      · exact Or.inr (Or.inr (Or.inr hold))
    exact hInv.openerPreExec k id0 b0 hph2
  · intro k j phk phj hpk hpj id0 b0 id' hok hoj
    rcases hcase k phk hpk with ⟨hki, rfl⟩ | ⟨hkne, holdk⟩
    · rw [hnxtOp] at hok; cases hok
    · rcases hcase j phj hpj with ⟨hji, rfl⟩ | ⟨hjne, holdj⟩
      · rw [hnxtOp] at hoj; cases hoj
      · exact hInv.openerUniq k j phk phj holdk holdj id0 b0 id' hok hoj
  · intro e he; rw [hlen]; exact hInv.logRange e he
  · intro b0; rw [hexec2]; exact hInv.logCount b0
  · intro e he
    obtain ⟨h1, t, h2⟩ := hInv.logPref e he
    by_cases hbb : e.1 = b
    · rw [hbb, hidsb]
      exact ⟨h1, t ++ [id], by rw [← List.append_assoc, h2, hbb]⟩
    · rw [hids2 e.1 hbb]
      exact ⟨h1, t, h2⟩
  · intro b0 hex
    rw [hexec2] at hex
    rw [hvals2, herr2]
    exact hInv.execJob b0 hex
  · intro k id0 b0 res hph
    rcases hcase k _ hph with ⟨_, heq⟩ | ⟨_, hold⟩
    · rcases hnxt with ⟨h, _⟩ | h <;> rw [h] at heq <;> simp at heq
    · rw [hexec2, hmk]
      exact hInv.finOK k id0 b0 res hold
  · intro hmu k ph hph
    rcases hcase k ph hph with ⟨_, rfl⟩ | ⟨_, hold⟩
    · exact hnxtHold
    · exact hInv.muFree hmu k ph hold
  · intro k j phk phj hpk hpj h1 h2
    rcases hcase k phk hpk with ⟨hki, rfl⟩ | ⟨hkne, holdk⟩
    · rw [hnxtHold] at h1; cases h1
    · rcases hcase j phj hpj with ⟨hji, rfl⟩ | ⟨hjne, holdj⟩
      · rw [hnxtHold] at h2; cases h2
      · exact hInv.muUniq k j phk phj holdk holdj h1 h2
  · intro k id0 b0 hph
    rcases hcase k _ hph with ⟨_, heq⟩ | ⟨_, hold⟩
    · rcases hnxt with ⟨h, _⟩ | h <;> rw [h] at heq <;> simp at heq
    · rw [htim2]
      exact hInv.oTimerF k id0 b0 hold
  · intro b0 h1
    rw [hwg2] at h1
    rw [hexec2]
    exact hInv.wgExec b0 h1
  · intro k id0 b0 hph
    rw [hexec2]
    have hph2 : s.threads.get? k = some (.pOWg id0 b0) ∨
        s.threads.get? k = some (.pOClean id0 b0) := by
      rcases hph with h | h <;> rcases hcase k _ h with ⟨_, heq⟩ | ⟨_, hold⟩
      · rcases hnxt with ⟨h3, _⟩ | h3 <;> rw [h3] at heq <;> simp at heq
      · exact Or.inl hold
      · rcases hnxt with ⟨h3, _⟩ | h3 <;> rw [h3] at heq <;> simp at heq
      · exact Or.inr hold
    exact hInv.oWgE k id0 b0 hph2
  · intro k id0 b0 hph
    rcases hcase k _ hph with ⟨_, heq⟩ | ⟨_, hold⟩
    · rcases hnxt with ⟨h, _⟩ | h <;> rw [h] at heq <;> simp at heq
    · rw [hwg2]
      exact hInv.jCleanWg k id0 b0 hold
  · intro k id0 b0 hph
    have hcast : ∀ b2, (((getB s b2).ids ++ [id]).length : Int)
        = ((getB s b2).ids.length : Int) + 1 := by
      intro b2; simp
    rcases hph with h | h <;> rcases hcase k _ h with ⟨hki, heq⟩ | ⟨_, hold⟩
    · rcases hnxt with ⟨h3, hlen3⟩ | h3
      · rw [h3] at heq
        obtain ⟨rfl, rfl⟩ : id0 = id ∧ b0 = b := by
          injection heq with e1 e2
          exact ⟨e1, e2⟩
        rw [hidsb]
        exact hlen3
      · rw [h3] at heq; simp at heq
    · by_cases hbb : b0 = b
      · subst hbb
        rw [hidsb, hcast]
        have := hInv.jSigLen k id0 b0 (Or.inl hold)
        omega
      · rw [hids2 b0 hbb]
        exact hInv.jSigLen k id0 b0 (Or.inl hold)
    · rcases hnxt with ⟨h3, hlen3⟩ | h3 <;> rw [h3] at heq <;> simp at heq
    · by_cases hbb : b0 = b
      · subst hbb
        rw [hidsb, hcast]
        have := hInv.jSigLen k id0 b0 (Or.inr hold)
        omega
      · rw [hids2 b0 hbb]
        exact hInv.jSigLen k id0 b0 (Or.inr hold)

/-- Preservation for the opener invoking the job:
`c.vals, c.err = fc.f(c.ids)` and the log of the invocation
(singlefleet.go:123, 152-155). -/
theorem inv_oexec (cfg : Cfg) (s : Sys) (i : Nat) (id : String) (b : Nat)
    (hInv : Inv cfg s) (hi : s.threads.get? i = some (.pOExec id b)) :
    Inv cfg { s with
      batches := s.batches.set b
        { getB s b with
            vals := (cfg.job (getB s b).ids).1,
            err := (cfg.job (getB s b).ids).2,
            executed := true },
      jobLog := s.jobLog ++ [(b, (getB s b).ids)],
      threads := s.threads.set i (.pOWg id b) } := by
  set bst' : BatchSt :=
    { getB s b with
        vals := (cfg.job (getB s b).ids).1,
        err := (cfg.job (getB s b).ids).2,
        executed := true } with hbst
  set s' : Sys := { s with
    batches := s.batches.set b bst',
    jobLog := s.jobLog ++ [(b, (getB s b).ids)],
    threads := s.threads.set i (.pOWg id b) } with hs'
  have hb : b < s.batches.length :=
    (hInv.owns i _ hi id b (by rw [ownsOf])).1
  have hexec0 : (getB s b).executed = false :=
    hInv.openerPreExec i id b (Or.inr (Or.inr (Or.inr hi)))
  have hcase : ∀ k ph, s'.threads.get? k = some ph →
      (k = i ∧ ph = Phase.pOWg id b) ∨ (k ≠ i ∧ s.threads.get? k = some ph) := by
    intro k ph hph
    exact getq_set_inv _ _ _ _ _ hph
  have hne : ∀ k, k ≠ i → s'.threads.get? k = s.threads.get? k := by
    intro k hk
    exact getq_set_ne _ _ _ _ hk
  have hgb : ∀ b2, getB s' b2 = if b2 = b then bst' else getB s b2 := by
    intro b2
    exact getD_set_cases s.batches b b2 _ hb
  have hids2 : ∀ b2, (getB s' b2).ids = (getB s b2).ids := by
    intro b2; rw [hgb]; split
    · rename_i h; rw [h]
    · rfl
  have hwg2 : ∀ b2, (getB s' b2).wgDone = (getB s b2).wgDone := by
    intro b2; rw [hgb]; split
    · rename_i h; rw [h]
    · rfl
  have hcsig2 : ∀ b2, (getB s' b2).csigClosed = (getB s b2).csigClosed := by
    intro b2; rw [hgb]; split
    · rename_i h; rw [h]
    · rfl
  have htim2 : ∀ b2, (getB s' b2).timerFired = (getB s b2).timerFired := by
    intro b2; rw [hgb]; split
    · rename_i h; rw [h]
    · rfl
  have hpres : ∀ b2, b2 ≠ b → getB s' b2 = getB s b2 := by
    intro b2 h2; rw [hgb, if_neg h2]
  have hexecb : (getB s' b).executed = true := by
    rw [hgb, if_pos rfl]
  have hlen : s'.batches.length = s.batches.length := by
    rw [hs']; exact List.length_set s.batches b _
  have hnoOpB : ∀ k phk, s.threads.get? k = some phk → ∀ oid,
      openerOf phk = some (oid, b) → k = i := by
    intro k phk hk oid hop
    exact hInv.openerUniq k i phk _ hk hi oid b id hop (by rw [openerOf])
  refine
    { owns := ?_, ownsUniq := ?_, idsNodup := ?_, pend := ?_, idsReg := ?_,
      openFresh := ?_, openerPreExec := ?_, openerUniq := ?_, logRange := ?_,
      logCount := ?_, logPref := ?_, execJob := ?_, finOK := ?_, muFree := ?_,
      muUniq := ?_, oTimerF := ?_, wgExec := ?_, oWgE := ?_, jCleanWg := ?_,
      jSigLen := ?_ }
  · intro k ph hph id0 b0 ho
    rw [hlen]
    rcases hcase k ph hph with ⟨_, rfl⟩ | ⟨_, hold⟩
    · obtain ⟨rfl, rfl⟩ : id = id0 ∧ b = b0 := by
        injection ho with h2
        exact ⟨congrArg Prod.fst h2, congrArg Prod.snd h2⟩
      exact hInv.owns i _ hi id b (by rw [ownsOf])
    · exact hInv.owns k ph hold id0 b0 ho
  · intro k j phk phj hpk hpj hkj id0 b0 id' b' hok hoj
    rcases hcase k phk hpk with ⟨hki, rfl⟩ | ⟨hkne, holdk⟩
    · rcases hcase j phj hpj with ⟨hji, rfl⟩ | ⟨hjne, holdj⟩
      · exact absurd (hki.trans hji.symm) hkj
      · obtain ⟨rfl, rfl⟩ : id = id0 ∧ b = b0 := by
          injection hok with h2
          exact ⟨congrArg Prod.fst h2, congrArg Prod.snd h2⟩
        exact hInv.ownsUniq i j _ phj hi holdj (by omega) id b id' b'
          (by rw [ownsOf]) hoj
    · rcases hcase j phj hpj with ⟨hji, rfl⟩ | ⟨hjne, holdj⟩
      · obtain ⟨rfl, rfl⟩ : id = id' ∧ b = b' := by
          injection hoj with h2
          exact ⟨congrArg Prod.fst h2, congrArg Prod.snd h2⟩
        exact (hInv.ownsUniq i k _ phk hi holdk (by omega) id b id0 b0
          (by rw [ownsOf]) hok).symm
      · exact hInv.ownsUniq k j phk phj holdk holdj hkj id0 b0 id' b' hok hoj
  · intro b2; rw [hids2]; exact hInv.idsNodup b2
  · intro k id0 b0 hph
    rcases hcase k _ hph with ⟨_, heq⟩ | ⟨_, hold⟩
    · simp at heq
    · rw [hids2]
      exact hInv.pend k id0 b0 hold
  · intro b0 hfcb x hx
    rw [hids2] at hx
    exact hInv.idsReg b0 hfcb x hx
  · intro b0 hfcb
    obtain ⟨h1, h2, h3, h4, k, oid, hk⟩ := hInv.openFresh b0 hfcb
    have hbb : b0 ≠ b := by
      intro hc
      subst hc
      have hki : k = i := by
        rcases hk with hk | hk | hk
        · exact hnoOpB k _ hk oid (by rw [openerOf])
        · exact hnoOpB k _ hk oid (by rw [openerOf])
        · exact hnoOpB k _ hk oid (by rw [openerOf])
      rw [hki, hi] at hk
      rcases hk with hk | hk | hk <;> simp at hk
    have hki : k ≠ i := by
      intro hc
      rw [hc, hi] at hk
      rcases hk with hk | hk | hk <;> simp at hk
    rw [hlen, hpres b0 hbb]
    refine ⟨h1, h2, h3, h4, k, oid, ?_⟩
    rw [hne k hki]
    exact hk
  · intro k id0 b0 hph
    have hph2 : k ≠ i ∧ (s.threads.get? k = some (.pOSelect id0 b0) ∨
        s.threads.get? k = some (.pOTimer id0 b0) ∨
        s.threads.get? k = some (.pODetach id0 b0) ∨
        s.threads.get? k = some (.pOExec id0 b0)) := by
      rcases hph with h | h | h | h <;>
        rcases hcase k _ h with ⟨_, heq⟩ | ⟨hkne, hold⟩
      · simp at heq
      · exact ⟨hkne, Or.inl hold⟩
      · simp at heq
      · exact ⟨hkne, Or.inr (Or.inl hold)⟩
      · simp at heq
      · exact ⟨hkne, Or.inr (Or.inr (Or.inl hold))⟩
      · simp at heq
      · exact ⟨hkne, Or.inr (Or.inr (Or.inr hold))⟩
    obtain ⟨hkne, hph2⟩ := hph2
    have hkb : b0 ≠ b := by
      intro hc
      subst hc
      refine hkne ?_
      rcases hph2 with h | h | h | h <;>
        exact hnoOpB k _ h id0 (by rw [openerOf])
    rw [hpres b0 hkb]
    exact hInv.openerPreExec k id0 b0 hph2
  · intro k j phk phj hpk hpj id0 b0 id' hok hoj
    rcases hcase k phk hpk with ⟨hki, rfl⟩ | ⟨hkne, holdk⟩
    · rcases hcase j phj hpj with ⟨hji, rfl⟩ | ⟨hjne, holdj⟩
      · rw [hki, hji]
      · obtain ⟨rfl, rfl⟩ : id = id0 ∧ b = b0 := by
          injection hok with h2
          exact ⟨congrArg Prod.fst h2, congrArg Prod.snd h2⟩
        rw [hki]
        exact (hInv.openerUniq j i phj _ holdj hi id' b id hoj
          (by rw [openerOf])).symm ▸ rfl
    · rcases hcase j phj hpj with ⟨hji, rfl⟩ | ⟨hjne, holdj⟩
      · obtain ⟨rfl, rfl⟩ : id = id' ∧ b = b0 := by
          injection hoj with h2
          exact ⟨congrArg Prod.fst h2, congrArg Prod.snd h2⟩
        rw [hji]
        exact hInv.openerUniq k i phk _ holdk hi id0 b id hok
          (by rw [openerOf])
      · exact hInv.openerUniq k j phk phj holdk holdj id0 b0 id' hok hoj
  · intro e he
    rw [hlen]
    have he2 : e ∈ s.jobLog ∨ e = (b, (getB s b).ids) := by
      rcases List.mem_append.mp he with h | h
      · exact Or.inl h
      · exact Or.inr (by simpa using h)
    rcases he2 with h | h
    · exact hInv.logRange e h
    · rw [h]; exact hb
  · intro b0
    show countB (s.jobLog ++ [(b, (getB s b).ids)]) b0 = _
    rw [countB_append1]
    by_cases hbb : b0 = b
    · rw [if_pos (by rw [hbb]), hbb, hexecb]
      have h9 := hInv.logCount b
      rw [hexec0] at h9
      simp at h9
      simp [h9]
    · rw [hpres b0 hbb, if_neg (fun h => hbb h.symm), Nat.add_zero]
      exact hInv.logCount b0
  · intro e he
    have he2 : e ∈ s.jobLog ∨ e = (b, (getB s b).ids) := by
      rcases List.mem_append.mp he with h | h
      · exact Or.inl h
      · exact Or.inr (by simpa using h)
    rcases he2 with h | h
    · obtain ⟨h1, t, h2⟩ := hInv.logPref e h
      exact ⟨h1, t, by rw [hids2]; exact h2⟩
    · rw [h]
      refine ⟨hInv.idsNodup b, [], ?_⟩
      rw [hids2]
      simp
  · intro b0 hex
    by_cases hbb : b0 = b
    · subst hbb
      refine ⟨(getB s b0).ids, List.mem_append_right _ (by simp), ?_⟩
      rw [hgb, if_pos rfl]
    · rw [hpres b0 hbb] at hex ⊢
      obtain ⟨l, hl1, hl2⟩ := hInv.execJob b0 hex
      exact ⟨l, List.mem_append_left _ hl1, hl2⟩
  · intro k id0 b0 res hph
    rcases hcase k _ hph with ⟨_, heq⟩ | ⟨_, hold⟩
    · simp at heq
    · obtain ⟨h1, h2⟩ := hInv.finOK k id0 b0 res hold
      have hbb : b0 ≠ b := by
        intro hc
        rw [hc] at h1
        rw [hexec0] at h1
        cases h1
      rw [hpres b0 hbb]
      exact ⟨h1, h2⟩
  · intro hmu k ph hph
    rcases hcase k ph hph with ⟨_, rfl⟩ | ⟨_, hold⟩
    · rfl
    · exact hInv.muFree hmu k ph hold
  · intro k j phk phj hpk hpj h1 h2
    rcases hcase k phk hpk with ⟨hki, rfl⟩ | ⟨hkne, holdk⟩
    · cases h1
    · rcases hcase j phj hpj with ⟨hji, rfl⟩ | ⟨hjne, holdj⟩
      · cases h2
      · exact hInv.muUniq k j phk phj holdk holdj h1 h2
  · intro k id0 b0 hph
    rcases hcase k _ hph with ⟨_, heq⟩ | ⟨_, hold⟩
    · simp at heq
    · rw [htim2]
      exact hInv.oTimerF k id0 b0 hold
  · intro b0 h1
    by_cases hbb : b0 = b
    · subst hbb
      exact hexecb
    · rw [hpres b0 hbb] at h1 ⊢
      exact hInv.wgExec b0 h1
  · intro k id0 b0 hph
    by_cases hbb : b0 = b
    · subst hbb
      exact hexecb
    · rw [hpres b0 hbb]
      have hph2 : s.threads.get? k = some (.pOWg id0 b0) ∨
          s.threads.get? k = some (.pOClean id0 b0) := by
        rcases hph with h | h <;> rcases hcase k _ h with ⟨_, heq⟩ | ⟨_, hold⟩
        · injection heq with e1 e2; exact absurd e2 hbb
        · exact Or.inl hold
        · simp at heq
        · exact Or.inr hold
      exact hInv.oWgE k id0 b0 hph2
  · intro k id0 b0 hph
    rcases hcase k _ hph with ⟨_, heq⟩ | ⟨_, hold⟩
    · simp at heq
    · rw [hwg2]
      exact hInv.jCleanWg k id0 b0 hold
  · intro k id0 b0 hph
    rw [hids2]
    have hph2 : s.threads.get? k = some (.pJSigLock id0 b0) ∨
        s.threads.get? k = some (.pJSend id0 b0) := by
      rcases hph with h | h <;> rcases hcase k _ h with ⟨_, heq⟩ | ⟨_, hold⟩
      · simp at heq
      · exact Or.inl hold
      · simp at heq
      · exact Or.inr hold
    exact hInv.jSigLen k id0 b0 hph2

/-- Preservation for the opener detaching the batch after a `csig`
rendezvous: `t.Stop(); fc.b = nil; fc.mu.Unlock()`
(singlefleet.go:117-120). -/
theorem inv_odetach (cfg : Cfg) (s : Sys) (i : Nat) (id : String) (b : Nat)
    (hInv : Inv cfg s) (hi : s.threads.get? i = some (.pODetach id b)) :
    Inv cfg { s with
      fcb := none, fcMu := false,
      threads := s.threads.set i (.pOExec id b) } := by
  set s' : Sys := { s with
    fcb := none, fcMu := false,
    threads := s.threads.set i (.pOExec id b) } with hs'
  have hcase : ∀ k ph, s'.threads.get? k = some ph →
      (k = i ∧ ph = Phase.pOExec id b) ∨
      (k ≠ i ∧ s.threads.get? k = some ph) := by
    intro k ph hph
    exact getq_set_inv _ _ _ _ _ hph
  refine
    { owns := ?_, ownsUniq := ?_, idsNodup := hInv.idsNodup, pend := ?_,
      idsReg := ?_, openFresh := ?_, openerPreExec := ?_, openerUniq := ?_,
      logRange := hInv.logRange, logCount := hInv.logCount,
      logPref := hInv.logPref, execJob := hInv.execJob, finOK := ?_,
      muFree := ?_, muUniq := ?_, oTimerF := ?_, wgExec := hInv.wgExec,
      oWgE := ?_, jCleanWg := ?_, jSigLen := ?_ }
  · intro k ph hph id0 b0 ho
    rcases hcase k ph hph with ⟨_, rfl⟩ | ⟨_, hold⟩
    · obtain ⟨rfl, rfl⟩ : id = id0 ∧ b = b0 := by
        injection ho with h2
        exact ⟨congrArg Prod.fst h2, congrArg Prod.snd h2⟩
      exact hInv.owns i _ hi id b (by rw [ownsOf])
    · exact hInv.owns k ph hold id0 b0 ho
  · intro k j phk phj hpk hpj hkj id0 b0 id' b' hok hoj
    rcases hcase k phk hpk with ⟨hki, rfl⟩ | ⟨hkne, holdk⟩
    · rcases hcase j phj hpj with ⟨hji, rfl⟩ | ⟨hjne, holdj⟩
      · exact absurd (hki.trans hji.symm) hkj
      · obtain ⟨rfl, rfl⟩ : id = id0 ∧ b = b0 := by
          injection hok with h2
          exact ⟨congrArg Prod.fst h2, congrArg Prod.snd h2⟩
        exact hInv.ownsUniq i j _ phj hi holdj (by omega) id b id' b'
          (by rw [ownsOf]) hoj
    · rcases hcase j phj hpj with ⟨hji, rfl⟩ | ⟨hjne, holdj⟩
      · obtain ⟨rfl, rfl⟩ : id = id' ∧ b = b' := by
          injection hoj with h2
          exact ⟨congrArg Prod.fst h2, congrArg Prod.snd h2⟩
        exact (hInv.ownsUniq i k _ phk hi holdk (by omega) id b id0 b0
          (by rw [ownsOf]) hok).symm
      · exact hInv.ownsUniq k j phk phj holdk holdj hkj id0 b0 id' b' hok hoj
  · intro k id0 b0 hph
    rcases hcase k _ hph with ⟨_, heq⟩ | ⟨_, hold⟩
    · simp at heq
    · exact hInv.pend k id0 b0 hold
  · intro b0 hfcb
    exact absurd hfcb (by simp [hs'])
  · intro b0 hfcb
    exact absurd hfcb (by simp [hs'])
  · intro k id0 b0 hph
    have hph2 : s.threads.get? k = some (.pOSelect id0 b0) ∨
        s.threads.get? k = some (.pOTimer id0 b0) ∨
        s.threads.get? k = some (.pODetach id0 b0) ∨
        s.threads.get? k = some (.pOExec id0 b0) := by
      rcases hph with h | h | h | h <;>
        rcases hcase k _ h with ⟨hki, heq⟩ | ⟨_, hold⟩
      · simp at heq
      · exact Or.inl hold
      · simp at heq
      · exact Or.inr (Or.inl hold)
      · simp at heq
      · exact Or.inr (Or.inr (Or.inl hold))
      · obtain ⟨rfl, rfl⟩ : id0 = id ∧ b0 = b := by
          injection heq with e1 e2
          exact ⟨e1, e2⟩
        rw [hki]
        exact Or.inr (Or.inr (Or.inl hi))
      · exact Or.inr (Or.inr (Or.inr hold))
    exact hInv.openerPreExec k id0 b0 hph2
  · intro k j phk phj hpk hpj id0 b0 id' hok hoj
    rcases hcase k phk hpk with ⟨hki, rfl⟩ | ⟨hkne, holdk⟩
    · rcases hcase j phj hpj with ⟨hji, rfl⟩ | ⟨hjne, holdj⟩
      · rw [hki, hji]
      · obtain ⟨rfl, rfl⟩ : id = id0 ∧ b = b0 := by
          injection hok with h2
          exact ⟨congrArg Prod.fst h2, congrArg Prod.snd h2⟩
        rw [hki]
        exact (hInv.openerUniq j i phj _ holdj hi id' b id hoj
          (by rw [openerOf])).symm ▸ rfl
    · rcases hcase j phj hpj with ⟨hji, rfl⟩ | ⟨hjne, holdj⟩
      · obtain ⟨rfl, rfl⟩ : id = id' ∧ b = b0 := by
          injection hoj with h2
          exact ⟨congrArg Prod.fst h2, congrArg Prod.snd h2⟩
        rw [hji]
        exact hInv.openerUniq k i phk _ holdk hi id0 b id hok
          (by rw [openerOf])
      · exact hInv.openerUniq k j phk phj holdk holdj id0 b0 id' hok hoj
  · intro k id0 b0 res hph
    rcases hcase k _ hph with ⟨_, heq⟩ | ⟨_, hold⟩
    · simp at heq
    · exact hInv.finOK k id0 b0 res hold
  · intro _ k ph hph
    rcases hcase k ph hph with ⟨_, rfl⟩ | ⟨hkne, hold⟩
    · rfl
    · by_contra hc
      have htrue : holderOf ph = true := by
        revert hc; cases holderOf ph <;> simp
      have := hInv.muUniq k i ph _ hold hi htrue (by rw [holderOf])
      exact hkne this
  · intro k j phk phj hpk hpj h1 h2
    rcases hcase k phk hpk with ⟨hki, rfl⟩ | ⟨hkne, holdk⟩
    · cases h1
    · rcases hcase j phj hpj with ⟨hji, rfl⟩ | ⟨hjne, holdj⟩
      · cases h2
      · exact hInv.muUniq k j phk phj holdk holdj h1 h2
  · intro k id0 b0 hph
    rcases hcase k _ hph with ⟨_, heq⟩ | ⟨_, hold⟩
    · simp at heq
    · exact hInv.oTimerF k id0 b0 hold
  · intro k id0 b0 hph
    have hph2 : s.threads.get? k = some (.pOWg id0 b0) ∨
        s.threads.get? k = some (.pOClean id0 b0) := by
      rcases hph with h | h <;> rcases hcase k _ h with ⟨_, heq⟩ | ⟨_, hold⟩
      · simp at heq
      · exact Or.inl hold
      · simp at heq
      · exact Or.inr hold
    exact hInv.oWgE k id0 b0 hph2
  · intro k id0 b0 hph
    rcases hcase k _ hph with ⟨_, heq⟩ | ⟨_, hold⟩
    · simp at heq
    · exact hInv.jCleanWg k id0 b0 hold
  · intro k id0 b0 hph
    have hph2 : s.threads.get? k = some (.pJSigLock id0 b0) ∨
        s.threads.get? k = some (.pJSend id0 b0) := by
      rcases hph with h | h <;> rcases hcase k _ h with ⟨_, heq⟩ | ⟨_, hold⟩
      · simp at heq
      · exact Or.inl hold
      · simp at heq
      · exact Or.inr hold
    exact hInv.jSigLen k id0 b0 hph2

/-- Preservation for an unbuffered `csig` rendezvous
(singlefleet.go:82/147 meeting 116): the sender `i` moves on and the opener
`j` leaves its `select` towards the detach code. -/
theorem inv_rdv (cfg : Cfg) (s : Sys) (i j : Nat) (oid : String) (b : Nat)
    (pOldS pNewS : Phase) (hInv : Inv cfg s)
    (hi : s.threads.get? i = some pOldS)
    (hj : s.threads.get? j = some (.pOSelect oid b)) (hij : i ≠ j)
    (hOwnsEq : ownsOf pNewS = ownsOf pOldS)
    (hNopOld : openerOf pOldS = none)
    (hNopNew : openerOf pNewS = none)
    (hNHold : holderOf pNewS = false)
    (hHoldOld : holderOf pOldS = true)
    (hNotApp : ∀ id0 b0, pNewS ≠ .pJAppend id0 b0)
    (hNotFin : ∀ id0 b0 res, pNewS ≠ .pFin id0 b0 res)
    (hNotTim : ∀ id0 b0, pNewS ≠ .pOTimer id0 b0)
    (hNotWg : ∀ id0 b0, pNewS ≠ .pOWg id0 b0)
    (hNotCl : ∀ id0 b0, pNewS ≠ .pOClean id0 b0)
    (hNotJCl : ∀ id0 b0, pNewS ≠ .pJClean id0 b0)
    (hJSigN : ∀ id0 b0, (pNewS = .pJSigLock id0 b0 ∨ pNewS = .pJSend id0 b0) →
      cfg.maxb ≤ ((getB s b0).ids.length : Int)) :
    Inv cfg { s with
      threads := (s.threads.set j (.pODetach oid b)).set i pNewS } := by
  set s' : Sys := { s with
    threads := (s.threads.set j (.pODetach oid b)).set i pNewS } with hs'
  have hcase : ∀ k ph, s'.threads.get? k = some ph →
      (k = i ∧ ph = pNewS) ∨ (k ≠ i ∧ k = j ∧ ph = Phase.pODetach oid b) ∨
      (k ≠ i ∧ k ≠ j ∧ s.threads.get? k = some ph) := by
    intro k ph hph
    rcases getq_set_inv _ _ _ _ _ hph with ⟨h1, h2⟩ | ⟨h1, h2⟩
    · exact Or.inl ⟨h1, h2⟩
    · rcases getq_set_inv _ _ _ _ _ h2 with ⟨h3, h4⟩ | ⟨h3, h4⟩
      · exact Or.inr (Or.inl ⟨h1, h3, h4⟩)
      · exact Or.inr (Or.inr ⟨h1, h3, h4⟩)
  have hmap : ∀ k ph, s'.threads.get? k = some ph →
      ∃ ph0, s.threads.get? k = some ph0 ∧ ownsOf ph = ownsOf ph0 ∧
        openerOf ph = openerOf ph0 := by
    intro k ph hph
    rcases hcase k ph hph with ⟨hki, rfl⟩ | ⟨_, hkj, rfl⟩ | ⟨_, _, hold⟩
    · exact ⟨pOldS, by rw [hki]; exact hi, hOwnsEq, by rw [hNopNew, hNopOld]⟩
    · exact ⟨.pOSelect oid b, by rw [hkj]; exact hj, rfl, rfl⟩
    · exact ⟨ph, hold, rfl, rfl⟩
  have hjq : s'.threads.get? j = some (.pODetach oid b) := by
    rw [getq_set_ne _ _ _ _ fun hc => hij hc.symm]
    exact getq_set_self _ _ _ _ hj
  refine
    { owns := ?_, ownsUniq := ?_, idsNodup := hInv.idsNodup, pend := ?_,
      idsReg := hInv.idsReg, openFresh := ?_, openerPreExec := ?_,
      openerUniq := ?_, logRange := hInv.logRange, logCount := hInv.logCount,
      logPref := hInv.logPref, execJob := hInv.execJob, finOK := ?_,
      muFree := ?_, muUniq := ?_, oTimerF := ?_, wgExec := hInv.wgExec,
      oWgE := ?_, jCleanWg := ?_, jSigLen := ?_ }
  · intro k ph hph id0 b0 ho
    obtain ⟨ph0, hold, hOwns0, _⟩ := hmap k ph hph
    rw [hOwns0] at ho
    exact hInv.owns k ph0 hold id0 b0 ho
  · intro k j2 phk phj hpk hpj hkj id0 b0 id' b' hok hoj
    obtain ⟨phk0, holdk, hOk, _⟩ := hmap k phk hpk
    obtain ⟨phj0, holdj, hOj, _⟩ := hmap j2 phj hpj
    rw [hOk] at hok
    rw [hOj] at hoj
    exact hInv.ownsUniq k j2 phk0 phj0 holdk holdj hkj id0 b0 id' b' hok hoj
  · intro k id0 b0 hph
    rcases hcase k _ hph with ⟨_, heq⟩ | ⟨_, _, heq⟩ | ⟨_, _, hold⟩
    · exact absurd heq.symm (hNotApp id0 b0)
    · simp at heq
    · exact hInv.pend k id0 b0 hold
  · intro b0 hfcb
    obtain ⟨h1, h2, h3, h4, k, oid0, hk⟩ := hInv.openFresh b0 hfcb
    have hki : k ≠ i := by
      intro hc
      rw [hc, hi] at hk
      rcases hk with hk | hk | hk <;>
        (rw [Option.some.inj hk] at hNopOld; simp [openerOf] at hNopOld)
    by_cases hkj : k = j
    · rw [hkj, hj] at hk
      have hsel : Phase.pOSelect oid b = Phase.pOSelect oid0 b0 := by
        rcases hk with hk | hk | hk
        · exact Option.some.inj hk
        · exact absurd (Option.some.inj hk) (by simp)
        · exact absurd (Option.some.inj hk) (by simp)
      obtain ⟨rfl, rfl⟩ : oid = oid0 ∧ b = b0 := by
        injection hsel with e1 e2
        exact ⟨e1, e2⟩
      exact ⟨h1, h2, h3, h4, j, oid, Or.inr (Or.inr hjq)⟩
    · refine ⟨h1, h2, h3, h4, k, oid0, ?_⟩
      have h8 : s'.threads.get? k = s.threads.get? k := by
        show ((s.threads.set j (Phase.pODetach oid b)).set i pNewS).get? k
          = s.threads.get? k
        rw [getq_set_ne _ i k _ hki, getq_set_ne _ j k _ hkj]
      rw [h8]
      exact hk
  · intro k id0 b0 hph
    rcases hph with h | h | h | h <;>
      rcases hcase k _ h with ⟨_, heq⟩ | ⟨_, hkj, heq⟩ | ⟨_, _, hold⟩
    · rw [← heq] at hNopNew; simp [openerOf] at hNopNew
    · simp at heq
    · exact hInv.openerPreExec k id0 b0 (Or.inl hold)
    · rw [← heq] at hNopNew; simp [openerOf] at hNopNew
    · simp at heq
    · exact hInv.openerPreExec k id0 b0 (Or.inr (Or.inl hold))
    · rw [← heq] at hNopNew; simp [openerOf] at hNopNew
    · obtain ⟨rfl, rfl⟩ : id0 = oid ∧ b0 = b := by
        injection heq with e1 e2
        exact ⟨e1, e2⟩
      exact hInv.openerPreExec j _ _ (Or.inl hj)
    · exact hInv.openerPreExec k id0 b0 (Or.inr (Or.inr (Or.inl hold)))
    · rw [← heq] at hNopNew; simp [openerOf] at hNopNew
    · simp at heq
    · exact hInv.openerPreExec k id0 b0 (Or.inr (Or.inr (Or.inr hold)))
  · intro k j2 phk phj hpk hpj id0 b0 id' hok hoj
    obtain ⟨phk0, holdk, _, hOk⟩ := hmap k phk hpk
    obtain ⟨phj0, holdj, _, hOj⟩ := hmap j2 phj hpj
    rw [hOk] at hok
    rw [hOj] at hoj
    exact hInv.openerUniq k j2 phk0 phj0 holdk holdj id0 b0 id' hok hoj
  · intro k id0 b0 res hph
    rcases hcase k _ hph with ⟨_, heq⟩ | ⟨_, _, heq⟩ | ⟨_, _, hold⟩
    · exact absurd heq.symm (hNotFin id0 b0 res)
    · simp at heq
    · exact hInv.finOK k id0 b0 res hold
  · intro hmu0 k ph hph
    have h9 := hInv.muFree hmu0 i pOldS hi
    rw [hHoldOld] at h9
    cases h9
  · intro k j2 phk phj hpk hpj h1 h2
    have hhold : ∀ k2 ph2, s'.threads.get? k2 = some ph2 →
        holderOf ph2 = true → k2 = j := by
      intro k2 ph2 hph2 hh2
      rcases hcase k2 ph2 hph2 with ⟨hki, rfl⟩ | ⟨_, hkj, rfl⟩ |
        ⟨hkni, _, hold⟩
      · rw [hNHold] at hh2; cases hh2
      · exact hkj
      · exact absurd (hInv.muUniq k2 i ph2 pOldS hold hi hh2 hHoldOld) hkni
    rw [hhold k phk hpk h1, hhold j2 phj hpj h2]
  · intro k id0 b0 hph
    rcases hcase k _ hph with ⟨_, heq⟩ | ⟨_, _, heq⟩ | ⟨_, _, hold⟩
    · exact absurd heq.symm (hNotTim id0 b0)
    · simp at heq
    · exact hInv.oTimerF k id0 b0 hold
  · intro k id0 b0 hph
    rcases hph with h | h <;>
      rcases hcase k _ h with ⟨_, heq⟩ | ⟨_, _, heq⟩ | ⟨_, _, hold⟩
    · exact absurd heq.symm (hNotWg id0 b0)
    · simp at heq
    · exact hInv.oWgE k id0 b0 (Or.inl hold)
    · exact absurd heq.symm (hNotCl id0 b0)
    · simp at heq
    · exact hInv.oWgE k id0 b0 (Or.inr hold)
  · intro k id0 b0 hph
    rcases hcase k _ hph with ⟨_, heq⟩ | ⟨_, _, heq⟩ | ⟨_, _, hold⟩
    · exact absurd heq.symm (hNotJCl id0 b0)
    · simp at heq
    · exact hInv.jCleanWg k id0 b0 hold
  · intro k id0 b0 hph
    rcases hph with h | h <;>
      rcases hcase k _ h with ⟨_, heq⟩ | ⟨_, _, heq⟩ | ⟨_, _, hold⟩
    · exact hJSigN id0 b0 (Or.inl heq.symm)
    · simp at heq
    · exact hInv.jSigLen k id0 b0 (Or.inl hold)
    · exact hJSigN id0 b0 (Or.inr heq.symm)
    · simp at heq
    · exact hInv.jSigLen k id0 b0 (Or.inr hold)

theorem ownsOf_of_openerOf {ph : Phase} {x : String × Nat}
    (h : openerOf ph = some x) : ownsOf ph = some x := by
  cases ph <;> first | exact h | exact Option.noConfusion h

/-! ### Dispatch: each `stepPh` branch preserves the invariant -/

theorem step_pStart (cfg : Cfg) (s s' : Sys) (i : Nat) (id : String)
    (hInv : Inv cfg s) (hq : s.threads.get? i = some (.pStart id))
    (hstep : stepPh cfg s i (.pStart id) = some s') : Inv cfg s' := by
  simp only [stepPh] at hstep
  by_cases hmu : s.fcMu
  · rw [if_pos hmu] at hstep; cases hstep
  · rw [if_neg hmu] at hstep
    cases hlook : assocLookup s.m id with
    | some b =>
      rw [hlook] at hstep
      injection hstep with h
      subst h
      exact inv_set_phase cfg s i _ (.pDupWait id b) hInv hq rfl rfl rfl
        (fun _ _ _ h => nomatch h) rfl
    | none =>
      rw [hlook] at hstep
      cases hfcb : s.fcb with
      | some b =>
        rw [hfcb] at hstep
        injection hstep with h
        subst h
        rw [← hfcb]
        have hInv1 : Inv cfg { s with m := (id, b) :: s.m } :=
          inv_minsert cfg s id b hInv hlook
        have hof := hInv.openFresh b hfcb
        have hreg : ∀ x ∈ (getB s b).ids, assocLookup s.m x = some b :=
          hInv.idsReg b hfcb
        exact inv_move cfg _ i (.pStart id) (.pJAppend id b) hInv1 hq
          (fun id0 b0 ho => by
            obtain ⟨rfl, rfl⟩ : id = id0 ∧ b = b0 := by
              injection ho with h2
              exact ⟨congrArg Prod.fst h2, congrArg Prod.snd h2⟩
            refine ⟨hof.1, ?_⟩
            show (if id = id then some b else assocLookup s.m id) = some b
            rw [if_pos rfl])
          (fun id0 b0 ho j phj hj hphj id' b' hoj => by
            obtain ⟨rfl, rfl⟩ : id = id0 ∧ b = b0 := by
              injection ho with h2
              exact ⟨congrArg Prod.fst h2, congrArg Prod.snd h2⟩
            have h3 := (hInv.owns j phj hphj id' b' hoj).2
            intro hc
            rw [← hc, hlook] at h3
            cases h3)
          (fun id0 b0 h => by
            cases h
            intro hmem
            have h3 := hreg id hmem
            rw [hlook] at h3
            cases h3)
          (fun id0 b0 h => by rcases h with h | h | h | h <;> exact nomatch h)
          (fun id0 b0 ho => nomatch ho)
          (fun _ _ _ h => nomatch h)
          (fun h => nomatch h)
          (fun h => nomatch h)
          (fun _ _ h => nomatch h)
          (fun _ _ h => by rcases h with h | h <;> exact nomatch h)
          (fun _ _ h => nomatch h)
          (fun _ _ h => by rcases h with h | h <;> exact nomatch h)
          (fun oid b0 _ h => by rcases h with h | h | h <;> exact nomatch h)
      | none =>
        rw [hfcb] at hstep
        injection hstep with h
        subst h
        set n := s.batches.length with hn
        set nb : BatchSt :=
          { ids := [id], vals := [], err := none, csigClosed := false,
            wgDone := false, muHeld := false, timerFired := false,
            executed := false } with hnb
        have hInv1 : Inv cfg { s with batches := s.batches ++ [nb] } :=
          inv_batchappend cfg s nb hInv (by simp [hnb]) rfl rfl
        have hInv2 : Inv cfg { s with
            m := (id, n) :: s.m,
            batches := s.batches ++ [nb] } :=
          inv_minsert cfg _ id n hInv1 hlook
        have hgbn : getB { s with
            m := (id, n) :: s.m,
            batches := s.batches ++ [nb] } n = nb := by
          show (s.batches ++ [nb]).getD n default = nb
          exact getD_append_len s.batches nb default
        have hInv3 : Inv cfg { s with
            m := (id, n) :: s.m,
            batches := s.batches ++ [nb],
            threads := s.threads.set i (.pOSelect id n) } := by
          refine inv_move cfg _ i (.pStart id) (.pOSelect id n) hInv2 hq
            ?_ ?_ (fun _ _ h => nomatch h) ?_ ?_
            (fun _ _ _ h => nomatch h) (fun h => nomatch h)
            (fun h => nomatch h) (fun _ _ h => nomatch h)
            (fun _ _ h => by rcases h with h | h <;> exact nomatch h)
            (fun _ _ h => nomatch h)
            (fun _ _ h => by rcases h with h | h <;> exact nomatch h)
            ?_
          · intro id0 b0 ho
            obtain ⟨rfl, rfl⟩ : id = id0 ∧ n = b0 := by
              injection ho with h2
              exact ⟨congrArg Prod.fst h2, congrArg Prod.snd h2⟩
            constructor
            · show n < (s.batches ++ [nb]).length
              simp [hn]
            · show (if id = id then some n else assocLookup s.m id) = some n
              rw [if_pos rfl]
          · intro id0 b0 ho j phj hj hphj id' b' hoj
            obtain ⟨rfl, rfl⟩ : id = id0 ∧ n = b0 := by
              injection ho with h2
              exact ⟨congrArg Prod.fst h2, congrArg Prod.snd h2⟩
            have h3 := (hInv.owns j phj hphj id' b' hoj).2
            intro hc
            rw [← hc, hlook] at h3
            cases h3
          · intro id0 b0 h
            rcases h with h | h | h | h
            · cases h
              rw [hgbn]
            · exact nomatch h
            · exact nomatch h
            · exact nomatch h
          · intro id0 b0 ho j phj hj hphj id' hoj
            obtain ⟨rfl, rfl⟩ : id = id0 ∧ n = b0 := by
              injection ho with h2
              exact ⟨congrArg Prod.fst h2, congrArg Prod.snd h2⟩
            have h3 := (hInv.owns j phj hphj id' n (ownsOf_of_openerOf hoj)).1
            omega
          · intro oid b0 hfcb2 _
            exact absurd hfcb2 (by simp [hfcb])
        refine inv_setfcb cfg _ n hInv3 ?_ ?_ ?_ ?_ ?_ ?_
        · show n < (s.batches ++ [nb]).length
          simp [hn]
        · show ((s.batches ++ [nb]).getD n default).executed = false
          rw [getD_append_len]
        · show ((s.batches ++ [nb]).getD n default).wgDone = false
          rw [getD_append_len]
        · show ((s.batches ++ [nb]).getD n default).csigClosed = false
          rw [getD_append_len]
        · exact ⟨i, id, Or.inl (getq_set_self _ _ _ _ hq)⟩
        · intro x hx
          have hx2 : x = id := by
            have h9 : ((s.batches ++ [nb]).getD n default).ids = [id] := by
              rw [getD_append_len]
            have h8 : x ∈ ([id] : List String) := by
              rw [← h9]
              exact hx
            simpa using h8
          rw [hx2]
          show (if id = id then some n else assocLookup s.m id) = some n
          rw [if_pos rfl]

theorem step_pDupWait (cfg : Cfg) (s s' : Sys) (i : Nat) (id : String)
    (b : Nat) (hInv : Inv cfg s)
    (hq : s.threads.get? i = some (.pDupWait id b))
    (hstep : stepPh cfg s i (.pDupWait id b) = some s') : Inv cfg s' := by
  simp only [stepPh] at hstep
  by_cases hwg : (getB s b).wgDone = true
  · rw [if_pos hwg] at hstep
    injection hstep with h
    subst h
    exact inv_move cfg s i _ (.pFin id b (mkRes (getB s b) id)) hInv hq
      (fun _ _ ho => nomatch ho)
      (fun _ _ ho => nomatch ho)
      (fun _ _ h => nomatch h)
      (fun _ _ h => by rcases h with h | h | h | h <;> exact nomatch h)
      (fun _ _ ho => nomatch ho)
      (fun id0 b0 res h => by
        cases h
        exact ⟨hInv.wgExec b hwg, rfl⟩)
      (fun h => nomatch h) (fun h => nomatch h)
      (fun _ _ h => nomatch h)
      (fun _ _ h => by rcases h with h | h <;> exact nomatch h)
      (fun _ _ h => nomatch h)
      (fun _ _ h => by rcases h with h | h <;> exact nomatch h)
      (fun _ _ _ h => by rcases h with h | h | h <;> exact nomatch h)
  · rw [if_neg hwg] at hstep; cases hstep

theorem step_pJAppend (cfg : Cfg) (s s' : Sys) (i : Nat) (id : String)
    (b : Nat) (hInv : Inv cfg s)
    (hq : s.threads.get? i = some (.pJAppend id b))
    (hstep : stepPh cfg s i (.pJAppend id b) = some s') : Inv cfg s' := by
  simp only [stepPh] at hstep
  by_cases hmu : (getB s b).muHeld = true
  · rw [if_pos hmu] at hstep; cases hstep
  · rw [if_neg hmu] at hstep
    injection hstep with h
    subst h
    by_cases hcond : cfg.maxb ≤ ((((getB s b).ids ++ [id]).length : Nat) : Int)
    · rw [if_pos hcond]
      exact inv_append cfg s i id b hInv hq _ (Or.inl ⟨rfl, hcond⟩)
    · rw [if_neg hcond]
      exact inv_append cfg s i id b hInv hq _ (Or.inr rfl)

theorem step_pJSigLock (cfg : Cfg) (s s' : Sys) (i : Nat) (id : String)
    (b : Nat) (hInv : Inv cfg s)
    (hq : s.threads.get? i = some (.pJSigLock id b))
    (hstep : stepPh cfg s i (.pJSigLock id b) = some s') : Inv cfg s' := by
  simp only [stepPh] at hstep
  by_cases hmu : s.fcMu = true
  · rw [if_pos hmu] at hstep; cases hstep
  · rw [if_neg hmu] at hstep
    injection hstep with h
    subst h
    refine inv_lock cfg s i _ (.pJSend id b) hInv hq (by simpa using hmu)
      ?_ ?_ (fun _ _ h => nomatch h) rfl (fun _ _ _ h => nomatch h)
      (fun _ _ h => nomatch h)
      (fun _ _ => ⟨(fun h => nomatch h), (fun h => nomatch h)⟩)
      (fun _ _ h => nomatch h) ?_ rfl
    · intro id0 b0 ho
      obtain ⟨rfl, rfl⟩ : id = id0 ∧ b = b0 := by
        injection ho with h2
        exact ⟨congrArg Prod.fst h2, congrArg Prod.snd h2⟩
      exact hInv.owns i _ hq id b rfl
    · intro id0 b0 ho j phj hj hphj id' b' hoj
      obtain ⟨rfl, rfl⟩ : id = id0 ∧ b = b0 := by
        injection ho with h2
        exact ⟨congrArg Prod.fst h2, congrArg Prod.snd h2⟩
      exact hInv.ownsUniq i j _ phj hq hphj (fun hc => hj hc.symm) id b id' b'
        rfl hoj
    · intro id0 b0 h
      rcases h with h | h
      · exact nomatch h
      · cases h
        exact hInv.jSigLen i id b (Or.inl hq)

theorem step_pJWait (cfg : Cfg) (s s' : Sys) (i : Nat) (id : String)
    (b : Nat) (hInv : Inv cfg s)
    (hq : s.threads.get? i = some (.pJWait id b))
    (hstep : stepPh cfg s i (.pJWait id b) = some s') : Inv cfg s' := by
  simp only [stepPh] at hstep
  by_cases hwg : (getB s b).wgDone = true
  · rw [if_pos hwg] at hstep
    injection hstep with h
    subst h
    refine inv_move cfg s i _ (.pJClean id b) hInv hq ?_ ?_
      (fun _ _ h => nomatch h)
      (fun _ _ h => by rcases h with h | h | h | h <;> exact nomatch h)
      (fun _ _ ho => nomatch ho)
      (fun _ _ _ h => nomatch h)
      (fun h => nomatch h) (fun h => nomatch h)
      (fun _ _ h => nomatch h)
      (fun _ _ h => by rcases h with h | h <;> exact nomatch h)
      (fun id0 b0 h => by cases h; exact hwg)
      (fun _ _ h => by rcases h with h | h <;> exact nomatch h)
      (fun _ _ _ h => by rcases h with h | h | h <;> exact nomatch h)
    · intro id0 b0 ho
      obtain ⟨rfl, rfl⟩ : id = id0 ∧ b = b0 := by
        injection ho with h2
        exact ⟨congrArg Prod.fst h2, congrArg Prod.snd h2⟩
      exact hInv.owns i _ hq id b rfl
    · intro id0 b0 ho j phj hj hphj id' b' hoj
      obtain ⟨rfl, rfl⟩ : id = id0 ∧ b = b0 := by
        injection ho with h2
        exact ⟨congrArg Prod.fst h2, congrArg Prod.snd h2⟩
      exact hInv.ownsUniq i j _ phj hq hphj (fun hc => hj hc.symm) id b id' b'
        rfl hoj
  · rw [if_neg hwg] at hstep; cases hstep

theorem step_pJUnlock (cfg : Cfg) (s s' : Sys) (i : Nat) (id : String)
    (b : Nat) (hInv : Inv cfg s)
    (hq : s.threads.get? i = some (.pJUnlock id b))
    (hstep : stepPh cfg s i (.pJUnlock id b) = some s') : Inv cfg s' := by
  simp only [stepPh] at hstep
  injection hstep with h
  subst h
  have hb : b < s.batches.length := (hInv.owns i _ hq id b rfl).1
  have hInv1 : Inv cfg { s with
      fcb := s.fcb,
      batches := s.batches.set b { getB s b with muHeld := false } } :=
    inv_setbatch cfg s b _ s.fcb hInv hb (Or.inl rfl) rfl rfl rfl rfl
      (fun h => h) (fun h => hInv.wgExec b h) (fun h => h)
      (fun h => ⟨(hInv.openFresh b h).2.2.1, (hInv.openFresh b h).2.2.2.1⟩)
  refine inv_move cfg _ i (.pJUnlock id b) (.pJWait id b) hInv1 hq ?_ ?_
    (fun _ _ h => nomatch h)
    (fun _ _ h => by rcases h with h | h | h | h <;> exact nomatch h)
    (fun _ _ ho => nomatch ho)
    (fun _ _ _ h => nomatch h)
    (fun h => nomatch h) (fun h => nomatch h)
    (fun _ _ h => nomatch h)
    (fun _ _ h => by rcases h with h | h <;> exact nomatch h)
    (fun _ _ h => nomatch h)
    (fun _ _ h => by rcases h with h | h <;> exact nomatch h)
    (fun _ _ _ h => by rcases h with h | h | h <;> exact nomatch h)
  · intro id0 b0 ho
    obtain ⟨rfl, rfl⟩ : id = id0 ∧ b = b0 := by
      injection ho with h2
      exact ⟨congrArg Prod.fst h2, congrArg Prod.snd h2⟩
    exact hInv1.owns i _ hq id b rfl
  · intro id0 b0 ho j phj hj hphj id' b' hoj
    obtain ⟨rfl, rfl⟩ : id = id0 ∧ b = b0 := by
      injection ho with h2
      exact ⟨congrArg Prod.fst h2, congrArg Prod.snd h2⟩
    exact hInv1.ownsUniq i j _ phj hq hphj (fun hc => hj hc.symm) id b id' b'
      rfl hoj

theorem step_pJSend (cfg : Cfg) (s s' : Sys) (i : Nat) (id : String)
    (b : Nat) (hInv : Inv cfg s)
    (hq : s.threads.get? i = some (.pJSend id b))
    (hstep : stepPh cfg s i (.pJSend id b) = some s') : Inv cfg s' := by
  simp only [stepPh] at hstep
  by_cases hcsig : (getB s b).csigClosed = true
  · rw [if_pos hcsig] at hstep
    injection hstep with h
    subst h
    exact inv_set_phase cfg s i _ .pPanic hInv hq rfl rfl rfl
      (fun _ _ _ h => nomatch h) rfl
  · rw [if_neg hcsig] at hstep
    cases hfo : findOpener s.threads b with
    | none => rw [hfo] at hstep; cases hstep
    | some j =>
      rw [hfo] at hstep
      dsimp only at hstep
      obtain ⟨oid, hjq⟩ := findOpener_sound s.threads b j hfo
      rw [hjq] at hstep
      injection hstep with h
      subst h
      have hij : i ≠ j := by
        intro hc
        rw [← hc, hq] at hjq
        exact nomatch hjq
      exact inv_rdv cfg s i j oid b (.pJSend id b) (.pJUnlock id b) hInv hq
        hjq hij rfl rfl rfl rfl rfl
        (fun _ _ h => nomatch h) (fun _ _ _ h => nomatch h)
        (fun _ _ h => nomatch h) (fun _ _ h => nomatch h)
        (fun _ _ h => nomatch h) (fun _ _ h => nomatch h)
        (fun _ _ h => by rcases h with h | h <;> exact nomatch h)

theorem step_pJClean (cfg : Cfg) (s s' : Sys) (i : Nat) (id : String)
    (b : Nat) (hInv : Inv cfg s)
    (hq : s.threads.get? i = some (.pJClean id b))
    (hstep : stepPh cfg s i (.pJClean id b) = some s') : Inv cfg s' := by
  simp only [stepPh] at hstep
  by_cases hmu : s.fcMu = true
  · rw [if_pos hmu] at hstep; cases hstep
  · rw [if_neg hmu] at hstep
    injection hstep with h
    subst h
    have hwgb : (getB s b).wgDone = true := hInv.jCleanWg i id b hq
    have hexecb := hInv.wgExec b hwgb
    have hInv1 : Inv cfg { s with
        threads := s.threads.set i (.pFin id b (mkRes (getB s b) id)) } := by
      refine inv_move cfg s i _ (.pFin id b (mkRes (getB s b) id)) hInv hq
        (fun _ _ ho => nomatch ho) (fun _ _ ho => nomatch ho)
        (fun _ _ h => nomatch h)
        (fun _ _ h => by rcases h with h | h | h | h <;> exact nomatch h)
        (fun _ _ ho => nomatch ho)
        (fun id0 b0 res h => by cases h; exact ⟨hexecb, rfl⟩)
        (fun h => nomatch h) (fun h => nomatch h)
        (fun _ _ h => nomatch h)
        (fun _ _ h => by rcases h with h | h <;> exact nomatch h)
        (fun _ _ h => nomatch h)
        (fun _ _ h => by rcases h with h | h <;> exact nomatch h)
        (fun _ _ _ h => by rcases h with h | h | h <;> exact nomatch h)
    refine inv_erase cfg _ id hInv1 ?_ ?_
    · intro k phk hphk b0 ho
      rcases getq_set_inv _ _ _ _ _ hphk with ⟨_, rfl⟩ | ⟨hkne, hold⟩
      · exact nomatch ho
      · exact (hInv.ownsUniq k i phk _ hold hq hkne id b0 id b ho rfl) rfl
    · intro b0 hfcb hmem
      have h1 := hInv.idsReg b0 hfcb id hmem
      have h2 := (hInv.owns i _ hq id b rfl).2
      rw [h1] at h2
      have hb0 : b0 = b := Option.some.inj h2
      have h3 := (hInv.openFresh b0 hfcb).2.2.1
      rw [hb0, hwgb] at h3
      cases h3

theorem step_pOSelect (cfg : Cfg) (s s' : Sys) (i : Nat) (id : String)
    (b : Nat) (hInv : Inv cfg s)
    (hq : s.threads.get? i = some (.pOSelect id b))
    (hstep : stepPh cfg s i (.pOSelect id b) = some s') : Inv cfg s' := by
  simp only [stepPh] at hstep
  by_cases htf : (getB s b).timerFired = true
  · rw [if_pos htf] at hstep
    injection hstep with h
    subst h
    refine inv_move cfg s i _ (.pOTimer id b) hInv hq ?_ ?_
      (fun _ _ h => nomatch h) ?_ ?_
      (fun _ _ _ h => nomatch h)
      (fun h => nomatch h) (fun h => nomatch h)
      (fun id0 b0 h => by cases h; exact htf)
      (fun _ _ h => by rcases h with h | h <;> exact nomatch h)
      (fun _ _ h => nomatch h)
      (fun _ _ h => by rcases h with h | h <;> exact nomatch h)
      ?_
    · intro id0 b0 ho
      obtain ⟨rfl, rfl⟩ : id = id0 ∧ b = b0 := by
        injection ho with h2
        exact ⟨congrArg Prod.fst h2, congrArg Prod.snd h2⟩
      exact hInv.owns i _ hq id b rfl
    · intro id0 b0 ho j phj hj hphj id' b' hoj
      obtain ⟨rfl, rfl⟩ : id = id0 ∧ b = b0 := by
        injection ho with h2
        exact ⟨congrArg Prod.fst h2, congrArg Prod.snd h2⟩
      exact hInv.ownsUniq i j _ phj hq hphj (fun hc => hj hc.symm) id b id' b'
        rfl hoj
    · intro id0 b0 h
      rcases h with h | h | h | h
      · exact nomatch h
      · cases h
        exact hInv.openerPreExec i id b (Or.inl hq)
      · exact nomatch h
      · exact nomatch h
    · intro id0 b0 ho j phj hj hphj id' hoj
      obtain ⟨rfl, rfl⟩ : id = id0 ∧ b = b0 := by
        injection ho with h2
        exact ⟨congrArg Prod.fst h2, congrArg Prod.snd h2⟩
      exact hj (hInv.openerUniq j i phj _ hphj hq id' b id hoj rfl)
    · intro oid b0 hfcb2 h
      rcases h with h | h | h
      · cases h
        exact Or.inr (Or.inl rfl)
      · exact nomatch h
      · exact nomatch h
  · rw [if_neg htf] at hstep; cases hstep

theorem step_pOTimer (cfg : Cfg) (s s' : Sys) (i : Nat) (id : String)
    (b : Nat) (hInv : Inv cfg s)
    (hq : s.threads.get? i = some (.pOTimer id b))
    (hstep : stepPh cfg s i (.pOTimer id b) = some s') : Inv cfg s' := by
  simp only [stepPh] at hstep
  by_cases hmu : s.fcMu = true
  · rw [if_pos hmu] at hstep; cases hstep
  · rw [if_neg hmu] at hstep
    injection hstep with h
    subst h
    have hb : b < s.batches.length := (hInv.owns i _ hq id b rfl).1
    have hInv1 : Inv cfg { s with
        fcb := none,
        batches := s.batches.set b { getB s b with csigClosed := true } } :=
      inv_setbatch cfg s b _ none hInv hb (Or.inr rfl) rfl rfl rfl rfl
        (fun h => h) (fun h => hInv.wgExec b h) (fun h => h)
        (fun h => nomatch h)
    refine inv_move cfg _ i (.pOTimer id b) (.pOExec id b) hInv1 hq ?_ ?_
      (fun _ _ h => nomatch h) ?_ ?_
      (fun _ _ _ h => nomatch h)
      (fun h => nomatch h) (fun h => nomatch h)
      (fun _ _ h => nomatch h)
      (fun _ _ h => by rcases h with h | h <;> exact nomatch h)
      (fun _ _ h => nomatch h)
      (fun _ _ h => by rcases h with h | h <;> exact nomatch h)
      (fun oid b0 hfcb2 _ => nomatch hfcb2)
    · intro id0 b0 ho
      obtain ⟨rfl, rfl⟩ : id = id0 ∧ b = b0 := by
        injection ho with h2
        exact ⟨congrArg Prod.fst h2, congrArg Prod.snd h2⟩
      exact hInv1.owns i _ hq id b rfl
    · intro id0 b0 ho j phj hj hphj id' b' hoj
      obtain ⟨rfl, rfl⟩ : id = id0 ∧ b = b0 := by
        injection ho with h2
        exact ⟨congrArg Prod.fst h2, congrArg Prod.snd h2⟩
      exact hInv1.ownsUniq i j _ phj hq hphj (fun hc => hj hc.symm) id b
        id' b' rfl hoj
    · intro id0 b0 h
      rcases h with h | h | h | h
      · exact nomatch h
      · exact nomatch h
      · exact nomatch h
      · cases h
        exact hInv1.openerPreExec i id b (Or.inr (Or.inl hq))
    · intro id0 b0 ho j phj hj hphj id' hoj
      obtain ⟨rfl, rfl⟩ : id = id0 ∧ b = b0 := by
        injection ho with h2
        exact ⟨congrArg Prod.fst h2, congrArg Prod.snd h2⟩
      exact hj (hInv1.openerUniq j i phj _ hphj hq id' b id hoj rfl)

theorem step_pODetach (cfg : Cfg) (s s' : Sys) (i : Nat) (id : String)
    (b : Nat) (hInv : Inv cfg s)
    (hq : s.threads.get? i = some (.pODetach id b))
    (hstep : stepPh cfg s i (.pODetach id b) = some s') : Inv cfg s' := by
  simp only [stepPh] at hstep
  injection hstep with h
  subst h
  exact inv_odetach cfg s i id b hInv hq

theorem step_pOExec (cfg : Cfg) (s s' : Sys) (i : Nat) (id : String)
    (b : Nat) (hInv : Inv cfg s)
    (hq : s.threads.get? i = some (.pOExec id b))
    (hstep : stepPh cfg s i (.pOExec id b) = some s') : Inv cfg s' := by
  simp only [stepPh] at hstep
  injection hstep with h
  subst h
  exact inv_oexec cfg s i id b hInv hq

theorem step_pOWg (cfg : Cfg) (s s' : Sys) (i : Nat) (id : String)
    (b : Nat) (hInv : Inv cfg s)
    (hq : s.threads.get? i = some (.pOWg id b))
    (hstep : stepPh cfg s i (.pOWg id b) = some s') : Inv cfg s' := by
  simp only [stepPh] at hstep
  injection hstep with h
  subst h
  have hb : b < s.batches.length := (hInv.owns i _ hq id b rfl).1
  have hexecb : (getB s b).executed = true := hInv.oWgE i id b (Or.inl hq)
  have hnofcb : ∀ b0, s.fcb = some b0 → b0 ≠ b := by
    intro b0 hfcb hc
    subst hc
    obtain ⟨_, _, _, _, k, oid, hk⟩ := hInv.openFresh b0 hfcb
    have hki : k = i := by
      rcases hk with hk | hk | hk <;>
        exact hInv.openerUniq k i _ _ hk hq oid b0 id rfl rfl
    rw [hki, hq] at hk
    rcases hk with hk | hk | hk <;> exact nomatch hk
  have hInv1 : Inv cfg { s with
      fcb := s.fcb,
      batches := s.batches.set b { getB s b with wgDone := true } } :=
    inv_setbatch cfg s b _ s.fcb hInv hb (Or.inl rfl) rfl rfl rfl rfl
      (fun _ => rfl) (fun _ => hexecb) (fun h => h)
      (fun hfcb => absurd rfl (hnofcb b hfcb))
  refine inv_move cfg _ i (.pOWg id b) (.pOClean id b) hInv1 hq ?_ ?_
    (fun _ _ h => nomatch h)
    (fun _ _ h => by rcases h with h | h | h | h <;> exact nomatch h)
    ?_
    (fun _ _ _ h => nomatch h)
    (fun h => nomatch h) (fun h => nomatch h)
    (fun _ _ h => nomatch h)
    ?_
    (fun _ _ h => nomatch h)
    (fun _ _ h => by rcases h with h | h <;> exact nomatch h)
    (fun _ _ _ h => by rcases h with h | h | h <;> exact nomatch h)
  · intro id0 b0 ho
    obtain ⟨rfl, rfl⟩ : id = id0 ∧ b = b0 := by
      injection ho with h2
      exact ⟨congrArg Prod.fst h2, congrArg Prod.snd h2⟩
    exact hInv1.owns i _ hq id b rfl
  · intro id0 b0 ho j phj hj hphj id' b' hoj
    obtain ⟨rfl, rfl⟩ : id = id0 ∧ b = b0 := by
      injection ho with h2
      exact ⟨congrArg Prod.fst h2, congrArg Prod.snd h2⟩
    exact hInv1.ownsUniq i j _ phj hq hphj (fun hc => hj hc.symm) id b id' b'
      rfl hoj
  · intro id0 b0 ho j phj hj hphj id' hoj
    obtain ⟨rfl, rfl⟩ : id = id0 ∧ b = b0 := by
      injection ho with h2
      exact ⟨congrArg Prod.fst h2, congrArg Prod.snd h2⟩
    exact hj (hInv1.openerUniq j i phj _ hphj hq id' b id hoj rfl)
  · intro id0 b0 h
    rcases h with h | h
    · exact nomatch h
    · cases h
      exact hInv1.oWgE i id b (Or.inl hq)

theorem step_pOClean (cfg : Cfg) (s s' : Sys) (i : Nat) (id : String)
    (b : Nat) (hInv : Inv cfg s)
    (hq : s.threads.get? i = some (.pOClean id b))
    (hstep : stepPh cfg s i (.pOClean id b) = some s') : Inv cfg s' := by
  simp only [stepPh] at hstep
  by_cases hmu : s.fcMu = true
  · rw [if_pos hmu] at hstep; cases hstep
  · rw [if_neg hmu] at hstep
    injection hstep with h
    subst h
    have hexecb : (getB s b).executed = true := hInv.oWgE i id b (Or.inr hq)
    have hInv1 : Inv cfg { s with
        threads := s.threads.set i (.pFin id b (mkRes (getB s b) id)) } := by
      refine inv_move cfg s i _ (.pFin id b (mkRes (getB s b) id)) hInv hq
        (fun _ _ ho => nomatch ho) (fun _ _ ho => nomatch ho)
        (fun _ _ h => nomatch h)
        (fun _ _ h => by rcases h with h | h | h | h <;> exact nomatch h)
        (fun _ _ ho => nomatch ho)
        (fun id0 b0 res h => by cases h; exact ⟨hexecb, rfl⟩)
        (fun h => nomatch h) (fun h => nomatch h)
        (fun _ _ h => nomatch h)
        (fun _ _ h => by rcases h with h | h <;> exact nomatch h)
        (fun _ _ h => nomatch h)
        (fun _ _ h => by rcases h with h | h <;> exact nomatch h)
        (fun _ _ _ h => by rcases h with h | h | h <;> exact nomatch h)
    refine inv_erase cfg _ id hInv1 ?_ ?_
    · intro k phk hphk b0 ho
      rcases getq_set_inv _ _ _ _ _ hphk with ⟨_, rfl⟩ | ⟨hkne, hold⟩
      · exact nomatch ho
      · exact (hInv.ownsUniq k i phk _ hold hq hkne id b0 id b ho rfl) rfl
    · intro b0 hfcb hmem
      have h1 := hInv.idsReg b0 hfcb id hmem
      have h2 := (hInv.owns i _ hq id b rfl).2
      rw [h1] at h2
      have hb0 : b0 = b := Option.some.inj h2
      have h3 := (hInv.openFresh b0 hfcb).2.1
      rw [hb0, hexecb] at h3
      cases h3

theorem step_pNowStart (cfg : Cfg) (s s' : Sys) (i : Nat)
    (hInv : Inv cfg s) (hq : s.threads.get? i = some .pNowStart)
    (hstep : stepPh cfg s i .pNowStart = some s') : Inv cfg s' := by
  simp only [stepPh] at hstep
  by_cases hmu : s.fcMu = true
  · rw [if_pos hmu] at hstep; cases hstep
  · rw [if_neg hmu] at hstep
    cases hfcb : s.fcb with
    | none =>
      rw [hfcb] at hstep
      injection hstep with h
      subst h
      rw [← hfcb]
      exact inv_set_phase cfg s i _ (.pNowFin false) hInv hq rfl rfl rfl
        (fun _ _ _ h => nomatch h) rfl
    | some b =>
      rw [hfcb] at hstep
      injection hstep with h
      subst h
      rw [← hfcb]
      exact inv_lock cfg s i _ (.pNowSend b) hInv hq (by simpa using hmu)
        (fun _ _ ho => nomatch ho)
        (fun _ _ ho => nomatch ho)
        (fun _ _ h => nomatch h) rfl (fun _ _ _ h => nomatch h)
        (fun _ _ h => nomatch h)
        (fun _ _ => ⟨(fun h => nomatch h), (fun h => nomatch h)⟩)
        (fun _ _ h => nomatch h)
        (fun _ _ h => by rcases h with h | h <;> exact nomatch h) rfl

theorem step_pNowSend (cfg : Cfg) (s s' : Sys) (i : Nat) (b : Nat)
    (hInv : Inv cfg s) (hq : s.threads.get? i = some (.pNowSend b))
    (hstep : stepPh cfg s i (.pNowSend b) = some s') : Inv cfg s' := by
  simp only [stepPh] at hstep
  by_cases hcsig : (getB s b).csigClosed = true
  · rw [if_pos hcsig] at hstep
    injection hstep with h
    subst h
    exact inv_set_phase cfg s i _ .pPanic hInv hq rfl rfl rfl
      (fun _ _ _ h => nomatch h) rfl
  · rw [if_neg hcsig] at hstep
    cases hfo : findOpener s.threads b with
    | none => rw [hfo] at hstep; cases hstep
    | some j =>
      rw [hfo] at hstep
      dsimp only at hstep
      obtain ⟨oid, hjq⟩ := findOpener_sound s.threads b j hfo
      rw [hjq] at hstep
      injection hstep with h
      subst h
      have hij : i ≠ j := by
        intro hc
        rw [← hc, hq] at hjq
        exact nomatch hjq
      exact inv_rdv cfg s i j oid b (.pNowSend b) (.pNowFin true) hInv hq
        hjq hij rfl rfl rfl rfl rfl
        (fun _ _ h => nomatch h) (fun _ _ _ h => nomatch h)
        (fun _ _ h => nomatch h) (fun _ _ h => nomatch h)
        (fun _ _ h => nomatch h) (fun _ _ h => nomatch h)
        (fun _ _ h => by rcases h with h | h <;> exact nomatch h)

/-- The step relation preserves the invariant. -/
theorem inv_step (cfg : Cfg) (s s' : Sys) (a : Act) (hInv : Inv cfg s)
    (hstep : step cfg s a = some s') : Inv cfg s' := by
  cases a with
  | tim b =>
    simp only [step] at hstep
    by_cases hlt : b < s.batches.length
    · rw [if_pos hlt] at hstep
      by_cases htf : (getB s b).timerFired = true
      · rw [if_pos htf] at hstep; cases hstep
      · rw [if_neg htf] at hstep
        injection hstep with h
        subst h
        exact inv_tim cfg s b hInv hlt
    · rw [if_neg hlt] at hstep; cases hstep
  | thr i =>
    simp only [step] at hstep
    cases hq : s.threads.get? i with
    | none => rw [hq] at hstep; cases hstep
    | some ph =>
      rw [hq] at hstep
      have hstep2 : stepPh cfg s i ph = some s' := hstep
      cases ph with
      | pStart id => exact step_pStart cfg s s' i id hInv hq hstep2
      | pDupWait id b => exact step_pDupWait cfg s s' i id b hInv hq hstep2
      | pJAppend id b => exact step_pJAppend cfg s s' i id b hInv hq hstep2
      | pJSigLock id b => exact step_pJSigLock cfg s s' i id b hInv hq hstep2
      | pJSend id b => exact step_pJSend cfg s s' i id b hInv hq hstep2
      | pJUnlock id b => exact step_pJUnlock cfg s s' i id b hInv hq hstep2
      | pJWait id b => exact step_pJWait cfg s s' i id b hInv hq hstep2
      | pJClean id b => exact step_pJClean cfg s s' i id b hInv hq hstep2
      | pOSelect id b => exact step_pOSelect cfg s s' i id b hInv hq hstep2
      | pOTimer id b => exact step_pOTimer cfg s s' i id b hInv hq hstep2
      | pODetach id b => exact step_pODetach cfg s s' i id b hInv hq hstep2
      | pOExec id b => exact step_pOExec cfg s s' i id b hInv hq hstep2
      | pOWg id b => exact step_pOWg cfg s s' i id b hInv hq hstep2
      | pOClean id b => exact step_pOClean cfg s s' i id b hInv hq hstep2
      | pFin id b res => simp [stepPh] at hstep2
      | pNowStart => exact step_pNowStart cfg s s' i hInv hq hstep2
      | pNowSend b => exact step_pNowSend cfg s s' i b hInv hq hstep2
      | pNowFin r => simp [stepPh] at hstep2
      | pPanic => simp [stepPh] at hstep2

/-- The invariant is preserved along any schedule. -/
theorem inv_runTrace (cfg : Cfg) :
    ∀ (tr : List Act) (s s' : Sys), Inv cfg s →
    runTrace cfg s tr = some s' → Inv cfg s' := by
  intro tr
  induction tr with
  | nil =>
    intro s s' h hrun
    injection hrun with h2
    rw [← h2]
    exact h
  | cons a tr ih =>
    intro s s' h hrun
    simp only [runTrace] at hrun
    cases hst : step cfg s a with
    | none => rw [hst] at hrun; cases hrun
    | some s1 =>
      rw [hst] at hrun
      exact ih s1 s' (inv_step cfg s s1 a h hst) hrun

theorem isInit_shape {ph : Phase} (h : isInit ph = true) :
    (∃ id, ph = .pStart id) ∨ ph = .pNowStart := by
  cases ph <;>
    first
    | exact Or.inl ⟨_, rfl⟩
    | exact Or.inr rfl
    | exact nomatch h

/-- The invariant holds in the initial state of a fresh fetcher. -/
theorem inv_init (cfg : Cfg) (ts : List Phase) (hts : InitOK ts) :
    Inv cfg (initSys ts) := by
  have hgb : ∀ b, getB (initSys ts) b = default := by
    intro b
    exact getD_oob [] b default (Nat.zero_le b)
  have hshape : ∀ i ph, (initSys ts).threads.get? i = some ph →
      (∃ id, ph = .pStart id) ∨ ph = .pNowStart := by
    intro i ph hph
    exact isInit_shape (hts ph (getq_mem hph))
  refine
    { owns := ?_, ownsUniq := ?_, idsNodup := ?_, pend := ?_, idsReg := ?_,
      openFresh := ?_, openerPreExec := ?_, openerUniq := ?_, logRange := ?_,
      logCount := ?_, logPref := ?_, execJob := ?_, finOK := ?_, muFree := ?_,
      muUniq := ?_, oTimerF := ?_, wgExec := ?_, oWgE := ?_, jCleanWg := ?_,
      jSigLen := ?_ }
  · intro i ph hph id b ho
    rcases hshape i ph hph with ⟨id2, rfl⟩ | rfl <;> exact nomatch ho
  · intro i j phi phj hpi hpj hij id b id' b' hoi hoj
    rcases hshape i phi hpi with ⟨id2, rfl⟩ | rfl <;> exact nomatch hoi
  · intro b; rw [hgb]; exact List.nodup_nil
  · intro i id b hph
    rcases hshape i _ hph with ⟨id2, h⟩ | h <;> exact nomatch h
  · intro b hfcb; exact nomatch hfcb
  · intro b hfcb; exact nomatch hfcb
  · intro i id b hph
    rcases hph with h | h | h | h <;>
      rcases hshape i _ h with ⟨id2, h2⟩ | h2 <;> exact nomatch h2
  · intro i j phi phj hpi hpj id b id' hoi hoj
    rcases hshape i phi hpi with ⟨id2, rfl⟩ | rfl <;> exact nomatch hoi
  · intro e he; exact absurd he (by simp [initSys])
  · intro b; rw [hgb]; rfl
  · intro e he; exact absurd he (by simp [initSys])
  · intro b hex; rw [hgb] at hex; exact nomatch hex
  · intro i id b res hph
    rcases hshape i _ hph with ⟨id2, h⟩ | h <;> exact nomatch h
  · intro hmu i ph hph
    rcases hshape i ph hph with ⟨id2, rfl⟩ | rfl <;> rfl
  · intro i j phi phj hpi hpj h1 h2
    rcases hshape i phi hpi with ⟨id2, rfl⟩ | rfl <;> exact nomatch h1
  · intro i id b hph
    rcases hshape i _ hph with ⟨id2, h⟩ | h <;> exact nomatch h
  · intro b h1; rw [hgb] at h1; exact nomatch h1
  · intro i id b hph
    rcases hph with h | h <;>
      rcases hshape i _ h with ⟨id2, h2⟩ | h2 <;> exact nomatch h2
  · intro i id b hph
    rcases hshape i _ hph with ⟨id2, h⟩ | h <;> exact nomatch h
  · intro i id b hph
    rcases hph with h | h <;>
      rcases hshape i _ h with ⟨id2, h2⟩ | h2 <;> exact nomatch h2

/-- Every reachable state of the system satisfies the invariant. -/
theorem inv_reach (cfg : Cfg) (ts : List Phase) (s : Sys) (hts : InitOK ts)
    (hr : Reach cfg ts s) : Inv cfg s := by
  obtain ⟨tr, htr⟩ := hr
  exact inv_runTrace cfg tr (initSys ts) s (inv_init cfg ts hts) htr

theorem getq_oob {α : Type} (l : List α) (i : Nat) (h : l.length ≤ i) :
    l.get? i = none := by
  induction l generalizing i with
  | nil => rfl
  | cons a t ih =>
    cases i with
    | zero => simp at h
    | succ i => simpa using ih i (by simpa using h)

theorem findOpener_set (l : List Phase) (b : Nat) (i : Nat) (x : Phase)
    (hx : isOpenSel x b = false)
    (hold : ∀ ph, l.get? i = some ph → isOpenSel ph b = false) :
    findOpener (l.set i x) b = findOpener l b := by
  induction l generalizing i with
  | nil => rfl
  | cons p t ih =>
    cases i with
    | zero =>
      have hp : isOpenSel p b = false := hold p rfl
      simp only [List.set_cons_zero, findOpener, hx, hp]
    | succ i =>
      simp only [List.set_cons_succ, findOpener]
      rw [ih i (fun ph hph => hold ph (by simpa using hph))]

/-! ### Concrete scenarios used to instantiate the claims -/

/-- The identity job: each requested id maps to itself, no error. -/
def jobSelf : Job := fun ids => (ids.map fun i => (i, i), none)

/-- The job of the spec's worked example: only `a` is found, with value
`ABC`; no error. -/
def jobAB : Job := fun _ => ([("a", "ABC")], none)

/-- A job returning a non-empty mapping TOGETHER with a non-nil error. -/
def jobErr : Job := fun _ => ([("a", "X")], some "boom")

def cfgA : Cfg := { job := jobSelf, maxw := 100, maxb := 10 }

def cfgB : Cfg := { job := jobAB, maxw := 100, maxb := 10 }

def cfgC : Cfg := { job := jobErr, maxw := 100, maxb := 10 }

def cfgD : Cfg := { job := jobSelf, maxw := 100, maxb := 1 }

def cfgE : Cfg := { job := jobSelf, maxw := 100, maxb := 2 }

def tsA : List Phase := [.pStart "a", .pStart "b", .pStart "c"]

def trA : List Act :=
  [.thr 0, .thr 1, .thr 1, .thr 1, .thr 2, .thr 2, .thr 2, .tim 0, .thr 0,
   .thr 0, .thr 0, .thr 0, .thr 0, .thr 1, .thr 1, .thr 2, .thr 2]

def sA : Sys := (runTrace cfgA (initSys tsA) trA).getD (initSys tsA)

def tsB : List Phase := [.pStart "a", .pStart "b"]

def trB : List Act :=
  [.thr 0, .thr 1, .thr 1, .thr 1, .tim 0, .thr 0, .thr 0, .thr 0, .thr 0,
   .thr 0, .thr 1, .thr 1]

def sB : Sys := (runTrace cfgB (initSys tsB) trB).getD (initSys tsB)

def tsC : List Phase := [.pStart "a"]

def trC : List Act := [.thr 0, .tim 0, .thr 0, .thr 0, .thr 0, .thr 0, .thr 0]

def sC : Sys := (runTrace cfgC (initSys tsC) trC).getD (initSys tsC)

/-! ### The claims -/

/-- C1: for every batch, the job is invoked exactly once — a reachable state's
invocation log holds exactly one entry per executed batch and none for an
unexecuted one — and the identifier list passed to the job is pairwise
distinct and consists exactly of the identifiers accumulated in that batch at
the moment of invocation (an initial segment of the batch's identifier list).
Instantiated by the witness at three concurrent requests with distinct ids
`a`, `b`, `c` under `maxb = 10`: the job runs once, with exactly those ids. -/
theorem C1_job_exactly_once (cfg : Cfg) (ts : List Phase) (s : Sys)
    (b : Nat) (l : List String) (hts : InitOK ts) (hr : Reach cfg ts s)
    (hmem : (b, l) ∈ s.jobLog) :
    countB s.jobLog b = 1 ∧ (getB s b).executed = true ∧ l.Nodup ∧
    ∃ t2, l ++ t2 = (getB s b).ids := by
  have hInv := inv_reach cfg ts s hts hr
  have hpos : 0 < countB s.jobLog b := countB_pos_of_mem hmem
  have hcnt := hInv.logCount b
  have hexec : (getB s b).executed = true := by
    by_contra hx
    rw [if_neg hx] at hcnt
    omega
  have hpref := hInv.logPref (b, l) hmem
  rw [hexec, if_pos rfl] at hcnt
  exact ⟨hcnt, hexec, hpref.1, hpref.2⟩

theorem C1_job_exactly_once_witness :
    countB sA.jobLog 0 = 1 ∧ (getB sA 0).executed = true ∧
    (["a", "b", "c"] : List String).Nodup ∧
    ∃ t2, ["a", "b", "c"] ++ t2 = (getB sA 0).ids :=
  C1_job_exactly_once cfgA tsA sA 0 ["a", "b", "c"] (by decide)
    ⟨trA, by decide⟩ (by decide)

/-- C2: in a reachable state, a participant that has returned from `Fetch(id)`
on a batch whose error is nil holds the triple
`(vals[id], vals[id] present, nil)`: the value looked up in the job's returned
mapping, found = whether the mapping contains the id (a valid negative, not an
error), and a nil error; and the mapping is exactly what the job returned for
the logged invocation.  Instantiated by the witness at the spec's worked
example (job over `[a, b]` returning only `a ↦ ABC`). -/
theorem C2_nil_error_result (cfg : Cfg) (ts : List Phase) (s : Sys)
    (i : Nat) (id : String) (b : Nat)
    (res : Option String × Bool × Option String)
    (hts : InitOK ts) (hr : Reach cfg ts s)
    (hfin : s.threads.get? i = some (.pFin id b res))
    (herr : (getB s b).err = none) :
    res = (assocLookup (getB s b).vals id,
           (assocLookup (getB s b).vals id).isSome, none) ∧
    ∃ l, (b, l) ∈ s.jobLog ∧ cfg.job l = ((getB s b).vals, none) := by
  have hInv := inv_reach cfg ts s hts hr
  have hf := hInv.finOK i id b res hfin
  constructor
  · rw [hf.2]
    simp only [mkRes]
    rw [herr]
  · obtain ⟨l, hl, hjob⟩ := hInv.execJob b hf.1
    rw [herr] at hjob
    exact ⟨l, hl, hjob⟩

theorem C2_nil_error_result_witness :
    ((some "ABC", true, none) : Option String × Bool × Option String)
      = (assocLookup (getB sB 0).vals "a",
         (assocLookup (getB sB 0).vals "a").isSome, none) ∧
    ∃ l, (0, l) ∈ sB.jobLog ∧ cfgB.job l = ((getB sB 0).vals, none) :=
  C2_nil_error_result cfgB tsB sB 0 "a" 0 (some "ABC", true, none)
    (by decide) ⟨trB, by decide⟩ (by decide) (by decide)

/-- C3 counterexample: with a job returning both a non-empty mapping and a
non-nil error, a participant's `Fetch` returns the mapped value with
found = true alongside the error — the mapping is NOT ignored (the code reads
`val, ok = b.vals[id]` regardless of `b.err`, singlefleet.go:131-132). -/
theorem C3_error_mapping_counterexample :
    runTrace cfgC (initSys tsC) trC = some sC ∧
    sC.threads.get? 0 = some (.pFin "a" 0 (some "X", true, some "boom")) ∧
    (getB sC 0).err = some "boom" := by decide

/-- C3 (amended): if the job returns error `e`, every returned participant of
that batch holds exactly `e` as the error — but the mapping returned alongside
the error is still consulted, not ignored: the participant's value and found
flag are `vals[id]` and its presence, so a participant whose id the mapping
contains receives that value with found = true despite the error. -/
theorem C3_error_result_amended (cfg : Cfg) (ts : List Phase) (s : Sys)
    (i : Nat) (id : String) (b : Nat)
    (res : Option String × Bool × Option String) (e : String)
    (hts : InitOK ts) (hr : Reach cfg ts s)
    (hfin : s.threads.get? i = some (.pFin id b res))
    (herr : (getB s b).err = some e) :
    res = (assocLookup (getB s b).vals id,
           (assocLookup (getB s b).vals id).isSome, some e) := by
  have hInv := inv_reach cfg ts s hts hr
  rw [(hInv.finOK i id b res hfin).2]
  simp only [mkRes]
  rw [herr]

theorem C3_error_result_amended_witness :
    ((some "X", true, some "boom") : Option String × Bool × Option String)
      = (assocLookup (getB sC 0).vals "a",
         (assocLookup (getB sC 0).vals "a").isSome, some "boom") :=
  C3_error_result_amended cfgC tsC sC 0 "a" 0 (some "X", true, some "boom")
    "boom" (by decide) ⟨trC, by decide⟩ (by decide) (by decide)

def tsD : List Phase := [.pStart "a"]

def sD : Sys := (runTrace cfgD (initSys tsD) [Act.thr 0]).getD (initSys tsD)

/-- C4 counterexample: with `maxb = 1`, the opening request alone reaches
maxBatchSize, yet the batch does not seal: the opener parks in the `select`
(the opener path, singlefleet.go:98-118, never compares `len(b.ids)` against
`fc.maxb`), the channel is not closed, no job has run, and the opener's thread
is blocked until the `maxWait` timer fires. -/
theorem C4_maxbatch_one_counterexample :
    runTrace cfgD (initSys tsD) [Act.thr 0] = some sD ∧
    sD.threads.get? 0 = some (.pOSelect "a" 0) ∧
    cfgD.maxb ≤ (((getB sD 0).ids.length : Nat) : Int) ∧
    (getB sD 0).csigClosed = false ∧
    (getB sD 0).timerFired = false ∧
    step cfgD sD (.thr 0) = none ∧
    sD.jobLog = [] := by decide

/-- C4 (amended): only a JOINER's append that brings the identifier count to
maxBatchSize fires the size-threshold seal signal (it proceeds to acquire
`fc.mu` and send on `csig`, singlefleet.go:80-82); the opening request itself
parks in the `select` regardless of the count, so a batch whose opening
request alone reaches maxBatchSize (e.g. maxBatchSize = 1) is not sealed by
the size rule and waits for the timer or `FetchNow`. -/
theorem C4_size_seal_amended (cfg : Cfg) (s : Sys) (i : Nat) (id : String)
    (b : Nat) (hmu : (getB s b).muHeld = false)
    (hlen : cfg.maxb ≤ ((((getB s b).ids ++ [id]).length : Nat) : Int)) :
    stepPh cfg s i (.pJAppend id b) =
      some { s with
        batches := s.batches.set b
          { getB s b with muHeld := true, ids := (getB s b).ids ++ [id] },
        threads := s.threads.set i (.pJSigLock id b) } ∧
    (s.fcMu = false → assocLookup s.m id = none → s.fcb = none →
      stepPh cfg s i (.pStart id) =
        some { s with fcb := some s.batches.length,
                      m := (id, s.batches.length) :: s.m,
                      batches := s.batches ++
                        [{ ids := [id], vals := [], err := none,
                           csigClosed := false, wgDone := false,
                           muHeld := false, timerFired := false,
                           executed := false }],
                      threads :=
                        s.threads.set i (.pOSelect id s.batches.length) }) := by
  constructor
  · simp only [stepPh, hmu, Bool.false_eq_true, if_false]
    rw [if_pos hlen]
  · intro hmu2 hreg hfcb
    simp only [stepPh, hmu2, Bool.false_eq_true, if_false]
    rw [hreg, hfcb]

def sE : Sys :=
  { fcMu := false, fcb := some 0, m := [("a", 0)],
    batches := [{ ids := ["a"], vals := [], err := none, csigClosed := false,
                  wgDone := false, muHeld := false, timerFired := false,
                  executed := false }],
    threads := [.pOSelect "a" 0, .pJAppend "b" 0], jobLog := [] }

theorem C4_size_seal_amended_witness :
    stepPh cfgE sE 1 (.pJAppend "b" 0) =
      some { sE with
        batches := sE.batches.set 0
          { getB sE 0 with muHeld := true, ids := (getB sE 0).ids ++ ["b"] },
        threads := sE.threads.set 1 (.pJSigLock "b" 0) } ∧
    (sE.fcMu = false → assocLookup sE.m "b" = none → sE.fcb = none →
      stepPh cfgE sE 1 (.pStart "b") =
        some { sE with fcb := some sE.batches.length,
                       m := ("b", sE.batches.length) :: sE.m,
                       batches := sE.batches ++
                         [{ ids := ["b"], vals := [], err := none,
                            csigClosed := false, wgDone := false,
                            muHeld := false, timerFired := false,
                            executed := false }],
                       threads :=
                         sE.threads.set 1 (.pOSelect "b" sE.batches.length) }) :=
  C4_size_seal_amended cfgE sE 1 "b" 0 (by decide) (by decide)

def tsF : List Phase := [.pStart "a", .pNowStart]

def sF : Sys := (runTrace cfgA (initSys tsF) [Act.thr 0]).getD (initSys tsF)

/-- C5: `FetchNow` with no open batch returns false with no other state
change; with an open batch it returns true and forces immediate sealing:
from any state where the open slot holds batch `b` whose channel is open and
whose opener is parked in the `select`, the `FetchNow` caller locks, sends,
and three steps later the open slot is cleared, the caller has returned true,
and the opener has moved on to execute the job — the registry and the batch
pool are untouched, overriding the unexpired timer and the unmet size bound. -/
theorem C5_fetchnow (cfg : Cfg) (s : Sys) (i j : Nat) (b : Nat) (oid : String)
    (hmu : s.fcMu = false)
    (hi : s.threads.get? i = some .pNowStart) :
    (s.fcb = none →
      step cfg s (.thr i) =
        some { s with threads := s.threads.set i (.pNowFin false) }) ∧
    (s.fcb = some b → (getB s b).csigClosed = false →
      findOpener s.threads b = some j →
      s.threads.get? j = some (.pOSelect oid b) → j ≠ i →
      ∃ s', runTrace cfg s [.thr i, .thr i, .thr j] = some s' ∧
        s'.fcb = none ∧
        s'.threads.get? i = some (.pNowFin true) ∧
        s'.threads.get? j = some (.pOExec oid b) ∧
        s'.m = s.m ∧ s'.batches = s.batches) := by
  constructor
  · intro hfcb
    simp only [step]
    rw [hi]
    simp only [stepPh, hmu, Bool.false_eq_true, if_false]
    rw [hfcb]
  · intro hfcb hcs hfo hj hji
    set s1 : Sys :=
      { s with fcMu := true, threads := s.threads.set i (.pNowSend b) }
      with hs1
    have h1 : step cfg s (.thr i) = some s1 := by
      simp only [step]
      rw [hi]
      simp only [stepPh, hmu, Bool.false_eq_true, if_false]
      rw [hfcb, hs1, hfcb]
    have hi1 : s1.threads.get? i = some (.pNowSend b) :=
      getq_set_self _ _ _ _ hi
    have hj1 : s1.threads.get? j = some (.pOSelect oid b) := by
      rw [hs1]
      show (s.threads.set i _).get? j = _
      rw [getq_set_ne _ _ _ _ hji]
      exact hj
    have hfo1 : findOpener s1.threads b = some j := by
      rw [hs1]
      show findOpener (s.threads.set i (.pNowSend b)) b = some j
      rw [findOpener_set s.threads b i (.pNowSend b) rfl
        (fun ph hph => by
          rw [hi] at hph
          injection hph with h2
          rw [← h2]
          rfl)]
      exact hfo
    set s2 : Sys :=
      { s1 with threads :=
          (s1.threads.set j (.pODetach oid b)).set i (.pNowFin true) }
      with hs2
    have h2 : step cfg s1 (.thr i) = some s2 := by
      simp only [step]
      rw [hi1]
      simp only [stepPh]
      have hcs1 : (getB s1 b).csigClosed = false := hcs
      rw [hcs1, if_neg (by simp)]
      rw [hfo1]
      dsimp only
      rw [hj1]
    have hj2 : s2.threads.get? j = some (.pODetach oid b) := by
      rw [hs2]
      show ((s1.threads.set j _).set i _).get? j = _
      rw [getq_set_ne _ _ _ _ hji]
      exact getq_set_self _ _ _ _ hj1
    set s3 : Sys :=
      { s2 with fcb := none, fcMu := false,
                threads := s2.threads.set j (.pOExec oid b) }
      with hs3
    have h3 : step cfg s2 (.thr j) = some s3 := by
      simp only [step]
      rw [hj2]
      rfl
    refine ⟨s3, ?_, rfl, ?_, ?_, rfl, rfl⟩
    · simp only [runTrace]
      rw [h1]
      simp only [runTrace]
      rw [h2]
      simp only [runTrace]
      rw [h3]
    · rw [hs3]
      show (s2.threads.set j _).get? i = _
      rw [getq_set_ne _ _ _ _ (fun hc => hji hc.symm)]
      rw [hs2]
      show ((s1.threads.set j _).set i _).get? i = _
      have hmid : (s1.threads.set j (Phase.pODetach oid b)).get? i
          = some (.pNowSend b) := by
        rw [getq_set_ne _ _ _ _ (fun hc => hji hc.symm)]
        exact hi1
      exact getq_set_self _ _ _ _ hmid
    · rw [hs3]
      show (s2.threads.set j _).get? j = _
      exact getq_set_self _ _ _ _ hj2

theorem C5_fetchnow_witness :
    (sF.fcb = none →
      step cfgA sF (.thr 1) =
        some { sF with threads := sF.threads.set 1 (.pNowFin false) }) ∧
    (sF.fcb = some 0 → (getB sF 0).csigClosed = false →
      findOpener sF.threads 0 = some 0 →
      sF.threads.get? 0 = some (.pOSelect "a" 0) → (0 : Nat) ≠ 1 →
      ∃ s', runTrace cfgA sF [.thr 1, .thr 1, .thr 0] = some s' ∧
        s'.fcb = none ∧
        s'.threads.get? 1 = some (.pNowFin true) ∧
        s'.threads.get? 0 = some (.pOExec "a" 0) ∧
        s'.m = sF.m ∧ s'.batches = sF.batches) :=
  C5_fetchnow cfgA sF 1 0 0 "a" (by decide) (by decide)

def trG : List Act :=
  [.thr 0, .thr 1, .tim 0, .thr 0, .thr 0, .thr 0, .thr 0, .thr 0, .thr 1,
   .thr 1, .thr 1, .thr 1]

def sG : Sys := (runTrace cfgA (initSys tsB) trG).getD (initSys tsB)

/-- C6: the append-vs-seal race loses a request silently.  A joiner that
registered while the batch was open can append its id AFTER the batch sealed
and executed (the joiner's append at singlefleet.go:79 checks only `b.mu`,
never whether `csig` closed): here the job ran with `[a]` only, yet the
batch's identifier list ends as `[a, b]`, exactly one batch was ever created
(no new batch for the loser), and the losing request returns
`(nil, false, nil)` and is finished — silently dropped, contradicting both
"a batch's identifier set is immutable once sealed" and "never silently
dropped". -/
theorem C6_append_after_seal_bug :
    runTrace cfgA (initSys tsB) trG = some sG ∧
    sG.jobLog = [(0, ["a"])] ∧
    (getB sG 0).ids = ["a", "b"] ∧
    (getB sG 0).csigClosed = true ∧
    sG.batches.length = 1 ∧
    sG.threads.get? 1 = some (.pFin "b" 0 (none, false, none)) ∧
    step cfgA sG (.thr 1) = none := by decide

def trH : List Act :=
  [.thr 0, .thr 1, .thr 1, .thr 1, .thr 1, .thr 0, .thr 0, .thr 0, .thr 0,
   .thr 1, .thr 1]

def sH : Sys := (runTrace cfgE (initSys tsB) trH).getD (initSys tsB)

/-- C7 counterexample: the opener does NOT purge the registry entries of all
the batch's identifiers, and a joiner's `Fetch` DOES remove a registry entry.
Here the opener of the batch over `[a, b]` has fully returned (`pFin`), yet
the joiner's entry `b ↦ 0` is still registered; it is the joiner's own
cleanup step (`delete(fc.m, id)`, singlefleet.go:91) that removes it. -/
theorem C7_opener_purge_counterexample :
    runTrace cfgE (initSys tsB) trH = some sH ∧
    sH.threads.get? 0 = some (.pFin "a" 0 (some "a", true, none)) ∧
    sH.m = [("b", 0)] ∧
    sH.threads.get? 1 = some (.pJClean "b" 0) ∧
    (step cfgE sH (.thr 1)).map Sys.m = some [] := by decide

/-- C7 (amended): registry cleanup is per-participant, not the opener's sole
responsibility: each participant — opener (singlefleet.go:127-128) and joiner
(singlefleet.go:90-91) alike — removes exactly its own registry entry after
the batch completes, leaving every other identifier's entry untouched. -/
theorem C7_own_entry_amended (cfg : Cfg) (s : Sys) (i : Nat) (id : String)
    (b : Nat) (hmu : s.fcMu = false) :
    stepPh cfg s i (.pOClean id b) =
      some { s with m := regErase s.m id,
                    threads :=
                      s.threads.set i (.pFin id b (mkRes (getB s b) id)) } ∧
    stepPh cfg s i (.pJClean id b) =
      some { s with m := regErase s.m id,
                    threads :=
                      s.threads.set i (.pFin id b (mkRes (getB s b) id)) } ∧
    ∀ x, x ≠ id → assocLookup (regErase s.m id) x = assocLookup s.m x := by
  refine ⟨?_, ?_, ?_⟩
  · simp only [stepPh, hmu, Bool.false_eq_true, if_false]
  · simp only [stepPh, hmu, Bool.false_eq_true, if_false]
  · intro x hx
    rw [assocLookup_erase, if_neg hx]

theorem C7_own_entry_amended_witness :
    stepPh cfgE sH 1 (.pOClean "b" 0) =
      some { sH with m := regErase sH.m "b",
                     threads :=
                       sH.threads.set 1 (.pFin "b" 0 (mkRes (getB sH 0) "b")) } ∧
    stepPh cfgE sH 1 (.pJClean "b" 0) =
      some { sH with m := regErase sH.m "b",
                     threads :=
                       sH.threads.set 1 (.pFin "b" 0 (mkRes (getB sH 0) "b")) } ∧
    ∀ x, x ≠ "b" → assocLookup (regErase sH.m "b") x = assocLookup sH.m x :=
  C7_own_entry_amended cfgE sH 1 "b" 0 (by decide)

/-- The `Fetcher` struct (singlefleet.go:31-39): the configuration, the
registry and the open-batch slot.  The job is an `Option` so that an absent
(nil) job is representable; the lock is irrelevant to construction. -/
structure GoFetcher where
  maxw : Int
  maxb : Int
  m : List (String × Nat)
  b : Option Nat
  f : Option Job

/-- `NewFetcher` (singlefleet.go:49-56): stores the configuration verbatim
and initialises an empty registry.  It contains no validation of any kind and
cannot fail. -/
def NewFetcher (job : Option Job) (maxWait : Int) (maxBatch : Int) :
    GoFetcher :=
  { f := job, maxw := maxWait, maxb := maxBatch, m := [], b := none }

/-- Modelled from the spec's words ("Malformed configuration (non-positive
maxBatchSize, absent job) should fail fast at construction time rather than
at first use"): a checked constructor that rejects a malformed
configuration.  Stated for comparison with `NewFetcher`, which is translated
from the source. -/
def newFetcherChecked (job : Option Job) (maxWait : Int) (maxBatch : Int) :
    Except String GoFetcher :=
  if job.isNone then .error "absent job"
  else if maxBatch ≤ 0 then .error "non-positive maxBatch"
  else .ok (NewFetcher job maxWait maxBatch)

/-- Does an `Except` hold an error? -/
def isErrorExc {α : Type} : Except String α → Bool
  | .error _ => true
  | .ok _ => false

/-- C8 counterexample: `NewFetcher` accepts a nil job together with
maxBatch = 0 without any failure, returning a fetcher that stores the
malformed configuration verbatim — while the spec-modelled checked
constructor rejects exactly this configuration. -/
theorem C8_newfetcher_counterexample :
    (NewFetcher none 100 0).f = none ∧
    (NewFetcher none 100 0).maxb = 0 ∧
    (NewFetcher none 100 0).m = [] ∧
    isErrorExc (newFetcherChecked none 100 0) = true :=
  ⟨rfl, rfl, rfl, rfl⟩

/-- C8 (amended): construction never fails fast — `NewFetcher` performs no
validation at all: it returns, for every configuration including a
non-positive maxBatchSize or an absent job, the fetcher that stores that
configuration verbatim with an empty registry and no open batch, deferring
every consequence of a malformed configuration to first use. -/
theorem C8_newfetcher_amended (job : Option Job) (w mb : Int) :
    NewFetcher job w mb =
      { f := job, maxw := w, maxb := mb, m := [], b := none } := rfl

def tsI : List Phase := [.pStart "a", .pNowStart]

def trI : List Act := [.thr 0, .thr 1, .tim 0, .thr 0]

def sI : Sys := (runTrace cfgA (initSys tsI) trI).getD (initSys tsI)

def trJ : List Act :=
  [.thr 0, .thr 1, .thr 1, .tim 0, .thr 0, .thr 0, .thr 1, .thr 1]

def sJ : Sys := (runTrace cfgE (initSys tsB) trJ).getD (initSys tsB)

/-- C9: seal-signal delivery both deadlocks and panics in the code.
Deadlock: a `FetchNow` caller acquires `fc.mu` and blocks in the unbuffered
send on `csig` (singlefleet.go:147) while the opener, committed to the timer
branch, blocks acquiring `fc.mu` (singlefleet.go:114) — after the trace
`trI` every action of the system is disabled, with the `FetchNow` caller
stuck at its send forever.  Panic: a joiner that reached the size threshold
blocks in its send on `csig` (singlefleet.go:82) without rechecking; after
the timer branch wins and runs `close(b.csig)`, its send is a send on a
closed channel, a runtime panic.  Both refute "never blocks indefinitely"
and "without double-firing, deadlocking, or panicking". -/
theorem C9_seal_signal_bug :
    (runTrace cfgA (initSys tsI) trI = some sI ∧
     sI.threads.get? 0 = some (.pOTimer "a" 0) ∧
     sI.threads.get? 1 = some (.pNowSend 0) ∧
     ∀ a, step cfgA sI a = none) ∧
    (runTrace cfgE (initSys tsB) trJ = some sJ ∧
     sJ.threads.get? 1 = some .pPanic ∧
     (getB sJ 0).csigClosed = true) := by
  refine ⟨⟨by decide, by decide, by decide, ?_⟩, by decide, by decide, by decide⟩
  intro a
  cases a with
  | thr i =>
    rcases i with _ | _ | i
    · decide
    · decide
    · have hnone : sI.threads.get? (i + 2) = none := by
        apply getq_oob
        have hlen : sI.threads.length = 2 := by decide
        omega
      simp only [step]
      rw [hnone]
  | tim b =>
    rcases b with _ | b
    · decide
    · have hlen : sI.batches.length = 1 := by decide
      simp only [step]
      rw [if_neg (by omega)]

/-- C10: a `Fetch(id)` whose id is already registered mutates no coordinator
or batch state: the duplicate path (singlefleet.go:64-69) changes only the
caller's own program counter to the waiting phase — registry, batch pool,
open-batch slot, lock and invocation log are untouched — then blocks until
the batch's WaitGroup is released and returns the batch's shared result,
never appending an id and never adding or removing a registry entry, not
even after completion. -/
theorem C10_dup_frame (cfg : Cfg) (s : Sys) (i : Nat) (id : String) (b : Nat)
    (hmu : s.fcMu = false) (hreg : assocLookup s.m id = some b) :
    stepPh cfg s i (.pStart id) =
      some { s with threads := s.threads.set i (.pDupWait id b) } ∧
    ((getB s b).wgDone = false → stepPh cfg s i (.pDupWait id b) = none) ∧
    ((getB s b).wgDone = true →
      stepPh cfg s i (.pDupWait id b) =
        some { s with threads :=
                 s.threads.set i (.pFin id b (mkRes (getB s b) id)) }) := by
  refine ⟨?_, ?_, ?_⟩
  · simp only [stepPh, hmu, Bool.false_eq_true, if_false]
    rw [hreg]
  · intro hwg
    simp only [stepPh, hwg, Bool.false_eq_true, if_false]
  · intro hwg
    simp only [stepPh, hwg, if_true]

theorem C10_dup_frame_witness :
    stepPh cfgE sH 0 (.pStart "b") =
      some { sH with threads := sH.threads.set 0 (.pDupWait "b" 0) } ∧
    ((getB sH 0).wgDone = false → stepPh cfgE sH 0 (.pDupWait "b" 0) = none) ∧
    ((getB sH 0).wgDone = true →
      stepPh cfgE sH 0 (.pDupWait "b" 0) =
        some { sH with threads :=
                 sH.threads.set 0 (.pFin "b" 0 (mkRes (getB sH 0) "b")) }) :=
  C10_dup_frame cfgE sH 0 "b" 0 (by decide) (by decide)

end Singlefleet